import Mathlib

/-!
LFUSetFinder: least-frequently-used set tracker.

A shallow embedding of `LFUSetFinder` (`inc/LFUFinder.h`, `src/LFUFinder.cc`).

* `int` values are integers; the places where the 32-bit width is visible are
  kept explicit: `frequency++` wraps in two's complement (`wrapInt32`), and the
  `int` chosen by `findLeastUsedSet` is converted to `uint32_t` (`toUInt32`).
* `std::unordered_map<int, CacheEntry>` is the list of its nodes in iteration
  order.  Where a new node lands in that order is left to the library, so every
  operation that can create a node takes a `Layout`: any function that puts the
  new node somewhere among the old ones (possibly reordering them, as a rehash
  does).  Assigning to an existing key rewrites the node in place.
* `std::unordered_set<int>` is a finite set of integers.
* `std::priority_queue` is the multiset of the pairs pushed into it.
-/

namespace LFUSetFinder

/-! ## Machine integers -/

/-- Largest value of a 32-bit `int`. -/
def INT_MAX : Int := 2147483647

/-- Smallest value of a 32-bit `int`. -/
def INT_MIN : Int := -2147483648

/-- The values an `int` can hold. -/
def InIntRange (x : Int) : Prop := INT_MIN ≤ x ∧ x ≤ INT_MAX

instance (x : Int) : Decidable (InIntRange x) := by
  unfold InIntRange; infer_instance

/-- Two's-complement reduction of an integer to a 32-bit `int`. -/
def wrapInt32 (x : Int) : Int := (x + 2147483648) % 4294967296 - 2147483648

/-- Conversion of an `int` to `uint32_t`: the value modulo `2^32`. -/
def toUInt32 (x : Int) : Nat := (x % 4294967296).toNat

/-! ## Data model -/

/-- The record `CacheEntry` of the header: a frequency counter and the set of way indices. -/
structure CacheEntry where
  frequency : Int
  ways : Finset Int
deriving DecidableEq

/-- A value-initialised `CacheEntry`, as `operator[]` creates for a missing key. -/
def CacheEntry.zero : CacheEntry := { frequency := 0, ways := ∅ }

/-- The nodes of `cacheEntries` in iteration order. -/
abbrev EntryMap := List (Int × CacheEntry)

/-- The private members of `LFUSetFinder`. -/
structure State where
  cacheEntries : EntryMap
  minHeap : Multiset (Int × Int)
deriving DecidableEq

/-- A freshly constructed tracker. -/
def State.empty : State := { cacheEntries := [], minHeap := 0 }

/-- Where the library puts a new node: some arrangement of the new node and the old ones. -/
structure Layout where
  place : Int × CacheEntry → EntryMap → EntryMap
  perm : ∀ p m, (place p m).Perm (p :: m)

/-- The layout that links every new node at the head of the node list. -/
def Layout.front : Layout := { place := fun p m => p :: m, perm := fun _ _ => List.Perm.refl _ }

/-- The layout that links every new node at the tail of the node list. -/
def Layout.back : Layout :=
  { place := fun p m => m ++ [p], perm := fun p m => List.perm_append_singleton p m }

/-! ## Map primitives -/

/-- The entry stored under key `k`, if any (`unordered_map::find`). -/
def find : EntryMap → Int → Option CacheEntry
  | [], _ => none
  | (k', e) :: rest, k => if k' = k then some e else find rest k

/-- Rewrite in place the entry stored under key `k`. -/
def update : EntryMap → Int → (CacheEntry → CacheEntry) → EntryMap
  | [], _, _ => []
  | (k', e) :: rest, k, f =>
      if k' = k then (k', f e) :: rest else (k', e) :: update rest k f

/-- The node lookup of `cacheEntries[k]`: a missing key gets a value-initialised entry. -/
def subscript (L : Layout) (m : EntryMap) (k : Int) : EntryMap :=
  if (find m k).isSome then m else L.place (k, CacheEntry.zero) m

/-! ## The three methods -/

/-- The `for` loop of `insertSet`: way indices `0 .. associativity - 1`. -/
def insertWays (associativity : Int) : Finset Int :=
  (List.range associativity.toNat).foldl
    (fun (ways : Finset Int) (i : Nat) => insert (i : Int) ways) ∅

/-- Method `insertSet`. -/
def insertSet (L : Layout) (st : State) (set associativity : Int) : State :=
  let entry : CacheEntry := { frequency := 0, ways := insertWays associativity }
  { cacheEntries := update (subscript L st.cacheEntries set) set (fun _ => entry)
    minHeap := (0, set) ::ₘ st.minHeap }

/-- One iteration of the loop in `findLeastUsedSet`, on `(leastUsedSet, leastAccessFreq)`. -/
def scanStep (acc : Int × Int) (pair : Int × CacheEntry) : Int × Int :=
  if pair.2.frequency < acc.2 then (pair.1, pair.2.frequency) else acc

/-- The loop of `findLeastUsedSet`. -/
def scan (m : EntryMap) (acc : Int × Int) : Int × Int := m.foldl scanStep acc

/-- Method `findLeastUsedSet`: the selected `int`, returned as `uint32_t`. -/
def findLeastUsedSet (st : State) : Nat :=
  toUInt32 (scan st.cacheEntries (INT_MAX, INT_MAX)).1

/-- Method `incrementAccessCount`. -/
def incrementAccessCount (L : Layout) (st : State) (set : Int) : State :=
  { st with
    cacheEntries := update (subscript L st.cacheEntries set) set
      (fun e => { e with frequency := wrapInt32 (e.frequency + 1) }) }

/-! ## Derived notions -/

/-- The frequency counter of set `s`, if `s` is registered. -/
def frequencyOf (st : State) (s : Int) : Option Int := (find st.cacheEntries s).map (·.frequency)

/-- The way-index set of set `s`, if `s` is registered. -/
def waysOf (st : State) (s : Int) : Option (Finset Int) := (find st.cacheEntries s).map (·.ways)

/-- Set `s` has an entry in the map. -/
def Registered (st : State) (s : Int) : Prop := (find st.cacheEntries s).isSome = true

instance (st : State) (s : Int) : Decidable (Registered st s) := by
  unfold Registered; infer_instance

/-- The keys of the map, in iteration order. -/
def keys (m : EntryMap) : List Int := m.map Prod.fst

/-- Representation invariant: keys are unique, and keys and counters are 32-bit `int`s. -/
def State.WF (st : State) : Prop :=
  (keys st.cacheEntries).Nodup ∧
    ∀ p ∈ st.cacheEntries, InIntRange p.1 ∧ InIntRange p.2.frequency

instance (st : State) : Decidable st.WF := by
  unfold State.WF; infer_instance

/-- A call of one of the three public methods. -/
inductive Op where
  | insertSet (set associativity : Int)
  | findLeastUsedSet
  | incrementAccessCount (set : Int)
deriving DecidableEq

/-- The tracker state after a call (`findLeastUsedSet` assigns no member). -/
def step (L : Layout) (st : State) : Op → State
  | .insertSet set associativity => insertSet L st set associativity
  | .findLeastUsedSet => st
  | .incrementAccessCount set => incrementAccessCount L st set

/-- A run of `incrementAccessCount` calls, one per listed identifier. -/
def recordAll (L : Layout) (st : State) (sets : List Int) : State :=
  sets.foldl (incrementAccessCount L) st

/-- The same call `incrementAccessCount(set)` made `n` times in a row. -/
def incrementTimes (L : Layout) (st : State) (set : Int) : Nat → State
  | 0 => st
  | n + 1 => incrementTimes L (incrementAccessCount L st set) set n

/-- The tracker state after a finite sequence of calls. -/
def run (L : Layout) (st : State) (ops : List Op) : State := ops.foldl (step L) st

/-- The number of `incrementAccessCount` calls in a sequence of calls. -/
def countIncrements : List Op → Nat
  | [] => 0
  | .incrementAccessCount _ :: rest => countIncrements rest + 1
  | _ :: rest => countIncrements rest

/-- The number of calls `incrementAccessCount(s)` in a sequence of calls. -/
def countAccesses (s : Int) : List Op → Nat
  | [] => 0
  | .incrementAccessCount t :: rest => (if t = s then 1 else 0) + countAccesses s rest
  | _ :: rest => countAccesses s rest

/-- No call of the sequence, run from state `st`, increments a counter that is at `INT_MAX`. -/
def overflowFree (L : Layout) : State → List Op → Bool
  | _, [] => true
  | st, .incrementAccessCount s :: rest =>
      decide (frequencyOf st s ≠ some INT_MAX) && overflowFree L (incrementAccessCount L st s) rest
  | st, op :: rest => overflowFree L (step L st op) rest

/-- The local variable `leastUsedSet` of `findLeastUsedSet` when the loop has finished. -/
def leastUsedSet (st : State) : Int := (scan st.cacheEntries (INT_MAX, INT_MAX)).1

/-! ## Sample states -/

/-- One registered set, number 5, whose counter has reached `INT_MAX`. -/
def saturatedState : State :=
  { cacheEntries := [(5, { frequency := 2147483647, ways := ∅ })], minHeap := {(0, 5)} }

/-- One registered set with the negative identifier `-1`, never accessed. -/
def negativeIdState : State :=
  { cacheEntries := [(-1, { frequency := 0, ways := ∅ })], minHeap := {(0, -1)} }

/-- Sets 1, 2 and 3 with counters 2, 1 and 0. -/
def threeSetState : State :=
  { cacheEntries := [(1, { frequency := 2, ways := {0, 1} }), (2, { frequency := 1, ways := {0, 1} }),
      (3, { frequency := 0, ways := {0, 1} })]
    minHeap := {(0, 1), (0, 2), (0, 3)} }

/-- Sets -1 and 3 with counters 0 and 1. -/
def negativeMinState : State :=
  { cacheEntries := [(-1, { frequency := 0, ways := {0} }), (3, { frequency := 1, ways := {0} })]
    minHeap := {(0, -1), (0, 3)} }

/-- Sets 1 and 2 with counters 0 and `INT_MAX`. -/
def nearOverflowState : State :=
  { cacheEntries := [(1, { frequency := 0, ways := {0} }),
      (2, { frequency := 2147483647, ways := {0} })]
    minHeap := {(0, 1), (0, 2)} }

/-- Sets -1 and 2, both with counter 0. -/
def negativeTieState : State :=
  { cacheEntries := [(-1, { frequency := 0, ways := {0} }), (2, { frequency := 0, ways := {0} })]
    minHeap := {(0, -1), (0, 2)} }

/-- Sets 1 and 2, both with counter `INT_MAX`. -/
def saturatedTieState : State :=
  { cacheEntries := [(1, { frequency := 2147483647, ways := {0} }),
      (2, { frequency := 2147483647, ways := {0} })]
    minHeap := {(0, 1), (0, 2)} }

/-- Sets 4, 7 and 9 with counters 3, 1 and 1: sets 7 and 9 share the least counter. -/
def tieState : State :=
  { cacheEntries := [(4, { frequency := 3, ways := {0} }), (7, { frequency := 1, ways := {0} }),
      (9, { frequency := 1, ways := {0} })]
    minHeap := {(0, 4), (0, 7), (0, 9)} }

/-- One registration of set 5 followed by `2^31` accesses to it. -/
def overflowRun : List Op :=
  Op.insertSet 5 0 :: List.replicate 2147483648 (Op.incrementAccessCount 5)

/-- Two registrations followed by `2^30` accesses to set 1 and `2^30` accesses to set 2. -/
def balancedRun : List Op :=
  Op.insertSet 1 2 :: Op.insertSet 2 2 ::
    (List.replicate 1073741824 (Op.incrementAccessCount 1) ++
      List.replicate 1073741824 (Op.incrementAccessCount 2))

/-- Two registrations, three accesses (one to an unregistered set) and one query. -/
def shortRun : List Op :=
  [Op.insertSet 1 2, Op.incrementAccessCount 1, Op.findLeastUsedSet,
    Op.incrementAccessCount 3, Op.insertSet 2 2, Op.incrementAccessCount 1]

/-- The scenario of three registrations followed by two accesses to `A` and one to `B`. -/
def scenarioABC (L : Layout) (A a B b C c : Int) : State :=
  incrementAccessCount L
    (incrementAccessCount L
      (incrementAccessCount L
        (insertSet L (insertSet L (insertSet L State.empty A a) B b) C c) A) A) B

/-! ## Machine-integer facts -/

theorem wrapInt32_eq_self {x : Int} (h : InIntRange x) : wrapInt32 x = x := by
  unfold InIntRange INT_MIN INT_MAX at h
  unfold wrapInt32
  omega

theorem wrapInt32_inRange (x : Int) : InIntRange (wrapInt32 x) := by
  unfold InIntRange INT_MIN INT_MAX wrapInt32
  omega

theorem inRange_zero : InIntRange 0 := by decide

theorem zero_le_INT_MAX : (0 : Int) ≤ INT_MAX := by decide

theorem zero_lt_INT_MAX : (0 : Int) < INT_MAX := by decide

theorem toUInt32_eq_self {x : Int} (h0 : 0 ≤ x) (h1 : x ≤ INT_MAX) : (toUInt32 x : Int) = x := by
  unfold INT_MAX at h1
  unfold toUInt32
  omega

theorem toUInt32_neg {x : Int} (h0 : INT_MIN ≤ x) (h1 : x < 0) :
    (toUInt32 x : Int) = x + 4294967296 := by
  unfold INT_MIN at h0
  unfold toUInt32
  omega

/-! ## Facts about the map primitives -/

theorem find_update (m : EntryMap) (k : Int) (f : CacheEntry → CacheEntry) (t : Int) :
    find (update m k f) t = if t = k then (find m k).map f else find m t := by
  induction m with
  | nil => simp [update, find]
  | cons x rest ih =>
    obtain ⟨k', e⟩ := x
    by_cases hk : k' = k
    · subst hk
      by_cases ht : t = k'
      · subst ht; simp [update, find]
      · have ht' : ¬ k' = t := fun h => ht h.symm
        simp [update, find, ht, ht']
    · by_cases ht : t = k
      · subst ht; simp [update, find, hk, ih]
      · simp [update, find, hk, ih, ht]

theorem keys_update (m : EntryMap) (k : Int) (f : CacheEntry → CacheEntry) :
    keys (update m k f) = keys m := by
  induction m with
  | nil => simp [update, keys]
  | cons x rest ih =>
    obtain ⟨k', e⟩ := x
    by_cases hk : k' = k
    · simp [update, keys, hk]
    · simp only [keys] at ih
      simp [update, keys, hk, ih]

theorem length_update (m : EntryMap) (k : Int) (f : CacheEntry → CacheEntry) :
    (update m k f).length = m.length := by
  have h := congrArg List.length (keys_update m k f)
  simpa [keys] using h

theorem mem_update {m : EntryMap} {k : Int} {f : CacheEntry → CacheEntry} {p : Int × CacheEntry}
    (h : p ∈ update m k f) : p ∈ m ∨ ∃ e, (k, e) ∈ m ∧ p = (k, f e) := by
  induction m with
  | nil => simp [update] at h
  | cons x rest ih =>
    obtain ⟨k', e⟩ := x
    by_cases hk : k' = k
    · subst hk
      simp only [update, if_true, List.mem_cons] at h
      rcases h with h | h
      · exact Or.inr ⟨e, by simp, h⟩
      · exact Or.inl (by simp [h])
    · simp only [update, hk, if_false, List.mem_cons] at h
      rcases h with h | h
      · exact Or.inl (by simp [h])
      · rcases ih h with h' | ⟨e', he', hp⟩
        · exact Or.inl (by simp [h'])
        · exact Or.inr ⟨e', by simp [he'], hp⟩

theorem find_eq_none_iff (m : EntryMap) (k : Int) : find m k = none ↔ k ∉ keys m := by
  induction m with
  | nil => simp [find, keys]
  | cons x rest ih =>
    obtain ⟨k', e⟩ := x
    by_cases hk : k' = k
    · simp [find, keys, hk]
    · have hk' : ¬ k = k' := fun h => hk h.symm
      simp only [keys] at ih
      simp [find, keys, hk, hk', ih]

theorem find_isSome_iff (m : EntryMap) (k : Int) : (find m k).isSome = true ↔ k ∈ keys m := by
  rw [← not_iff_not, ← find_eq_none_iff]
  cases find m k <;> simp

theorem mem_of_find {m : EntryMap} {k : Int} {e : CacheEntry} (h : find m k = some e) :
    (k, e) ∈ m := by
  induction m with
  | nil => simp [find] at h
  | cons x rest ih =>
    obtain ⟨k', e'⟩ := x
    by_cases hk : k' = k
    · simp only [find, hk, if_true, Option.some.injEq] at h
      simp [hk, h]
    · simp only [find, hk, if_false] at h
      simp [ih h]

theorem find_of_mem {m : EntryMap} {k : Int} {e : CacheEntry} (hnd : (keys m).Nodup)
    (h : (k, e) ∈ m) : find m k = some e := by
  induction m with
  | nil => simp at h
  | cons x rest ih =>
    obtain ⟨k', e'⟩ := x
    simp only [keys, List.map_cons, List.nodup_cons] at hnd
    simp only [List.mem_cons, Prod.mk.injEq] at h
    rcases h with ⟨h1, h2⟩ | h
    · simp [find, h1, h2]
    · have hk : ¬ k' = k := by
        intro hk
        apply hnd.1
        rw [hk]
        exact List.mem_map_of_mem Prod.fst h
      simp only [find, hk, if_false]
      exact ih hnd.2 h

theorem find_perm {m₁ m₂ : EntryMap} (hp : m₁.Perm m₂) (hnd : (keys m₁).Nodup) (k : Int) :
    find m₁ k = find m₂ k := by
  have hnd₂ : (keys m₂).Nodup := (hp.map Prod.fst).nodup_iff.mp hnd
  cases h : find m₁ k with
  | some e => exact (find_of_mem hnd₂ (hp.subset (mem_of_find h))).symm
  | none =>
    have h1 : k ∉ keys m₁ := (find_eq_none_iff m₁ k).mp h
    have h2 : k ∉ keys m₂ := fun hk => h1 ((hp.map Prod.fst).symm.subset hk)
    exact ((find_eq_none_iff m₂ k).mpr h2).symm

theorem subscript_of_find {L : Layout} {m : EntryMap} {k : Int} {e : CacheEntry}
    (h : find m k = some e) : subscript L m k = m := by
  simp [subscript, h]

theorem subscript_perm_of_none {L : Layout} {m : EntryMap} {k : Int} (h : find m k = none) :
    (subscript L m k).Perm ((k, CacheEntry.zero) :: m) := by
  simp only [subscript, h, Option.isSome_none, Bool.false_eq_true, if_false]
  exact L.perm _ _

theorem mem_subscript {L : Layout} {m : EntryMap} {k : Int} {p : Int × CacheEntry}
    (h : p ∈ subscript L m k) : p ∈ m ∨ p = (k, CacheEntry.zero) := by
  cases hf : find m k with
  | some e => rw [subscript_of_find hf] at h; exact Or.inl h
  | none =>
    have := (subscript_perm_of_none (L := L) hf).subset h
    simp only [List.mem_cons] at this
    exact this.symm

theorem find_subscript_self_isSome (L : Layout) (m : EntryMap) (k : Int) :
    (find (subscript L m k) k).isSome = true := by
  cases hf : find m k with
  | some e => rw [subscript_of_find hf]; simp [hf]
  | none =>
    rw [find_isSome_iff]
    have hp := (subscript_perm_of_none (L := L) hf).symm.map Prod.fst
    exact hp.subset (by simp)

theorem keys_subscript_nodup (L : Layout) {m : EntryMap} (k : Int) (hnd : (keys m).Nodup) :
    (keys (subscript L m k)).Nodup := by
  cases hf : find m k with
  | some e => rw [subscript_of_find hf]; exact hnd
  | none =>
    have hp := (subscript_perm_of_none (L := L) hf).map Prod.fst
    refine hp.nodup_iff.mpr ?_
    simp only [List.map_cons, List.nodup_cons]
    exact ⟨(find_eq_none_iff m k).mp hf, hnd⟩

theorem find_subscript (L : Layout) {m : EntryMap} (hnd : (keys m).Nodup) (k t : Int) :
    find (subscript L m k) t =
      if t = k then some ((find m k).getD CacheEntry.zero) else find m t := by
  cases hf : find m k with
  | some e =>
    rw [subscript_of_find hf]
    by_cases ht : t = k
    · simp [ht, hf]
    · simp [ht]
  | none =>
    have hp := subscript_perm_of_none (L := L) hf
    have hnd' := keys_subscript_nodup L k hnd
    rw [find_perm hp hnd']
    by_cases ht : t = k
    · simp [find, ht]
    · have ht' : ¬ k = t := fun h => ht h.symm
      simp [find, ht, ht']

theorem length_subscript (L : Layout) (m : EntryMap) (k : Int) :
    (subscript L m k).length = if (find m k).isSome then m.length else m.length + 1 := by
  cases hf : find m k with
  | some e => rw [subscript_of_find hf]; simp
  | none => simpa using (subscript_perm_of_none (L := L) hf).length_eq

/-! ## Facts about the scan of `findLeastUsedSet` -/

theorem scan_cons (x : Int × CacheEntry) (m : EntryMap) (acc : Int × Int) :
    scan (x :: m) acc = scan m (scanStep acc x) := rfl

theorem scan_of_le (m : EntryMap) (acc : Int × Int)
    (h : ∀ p ∈ m, acc.2 ≤ p.2.frequency) : scan m acc = acc := by
  induction m generalizing acc with
  | nil => rfl
  | cons x rest ih =>
    have hx : ¬ x.2.frequency < acc.2 := not_lt.mpr (h x (by simp))
    rw [scan_cons]
    simp only [scanStep, hx, if_false]
    exact ih acc (fun p hp => h p (by simp [hp]))

/-- The loop selects the first entry, in iteration order, among those of least frequency,
as soon as some entry is below the initial bound. -/
theorem scan_spec (m : EntryMap) (acc : Int × Int) (h : ∃ p ∈ m, p.2.frequency < acc.2) :
    ∃ l₁ p l₂, m = l₁ ++ p :: l₂ ∧ scan m acc = (p.1, p.2.frequency) ∧
      p.2.frequency < acc.2 ∧ (∀ q ∈ l₁, p.2.frequency < q.2.frequency) ∧
      (∀ q ∈ l₂, p.2.frequency ≤ q.2.frequency) := by
  induction m generalizing acc with
  | nil => simp at h
  | cons x rest ih =>
    rw [scan_cons]
    by_cases hx : x.2.frequency < acc.2
    · have hs : scanStep acc x = (x.1, x.2.frequency) := by simp [scanStep, hx]
      rw [hs]
      by_cases hr : ∃ p ∈ rest, p.2.frequency < x.2.frequency
      · obtain ⟨l₁, p, l₂, hm, hscan, hlt, h1, h2⟩ := ih (x.1, x.2.frequency) hr
        refine ⟨x :: l₁, p, l₂, by simp [hm], hscan, lt_trans hlt hx, ?_, h2⟩
        intro q hq
        simp only [List.mem_cons] at hq
        rcases hq with hq | hq
        · rw [hq]; exact hlt
        · exact h1 q hq
      · have hle : ∀ p ∈ rest, x.2.frequency ≤ p.2.frequency := by
          intro p hp
          exact not_lt.mp (fun hlt => hr ⟨p, hp, hlt⟩)
        refine ⟨[], x, rest, rfl, scan_of_le rest _ hle, hx, by simp, hle⟩
    · have hs : scanStep acc x = acc := by simp [scanStep, hx]
      rw [hs]
      have hr : ∃ p ∈ rest, p.2.frequency < acc.2 := by
        obtain ⟨p, hp, hlt⟩ := h
        simp only [List.mem_cons] at hp
        rcases hp with hp | hp
        · exact absurd (hp ▸ hlt) hx
        · exact ⟨p, hp, hlt⟩
      obtain ⟨l₁, p, l₂, hm, hscan, hlt, h1, h2⟩ := ih acc hr
      refine ⟨x :: l₁, p, l₂, by simp [hm], hscan, hlt, ?_, h2⟩
      intro q hq
      simp only [List.mem_cons] at hq
      rcases hq with hq | hq
      · rw [hq]; exact lt_of_lt_of_le hlt (not_lt.mp hx)
      · exact h1 q hq

/-! ## Facts about the methods -/

theorem find_insertSet (L : Layout) {st : State} (hnd : (keys st.cacheEntries).Nodup)
    (s a t : Int) :
    find (insertSet L st s a).cacheEntries t =
      if t = s then some { frequency := 0, ways := insertWays a } else find st.cacheEntries t := by
  simp only [insertSet, find_update, find_subscript L hnd]
  by_cases ht : t = s
  · simp [ht]
  · simp [ht]

theorem find_incrementAccessCount (L : Layout) {st : State} (hnd : (keys st.cacheEntries).Nodup)
    (s t : Int) :
    find (incrementAccessCount L st s).cacheEntries t =
      if t = s then
        some { (find st.cacheEntries s).getD CacheEntry.zero with
          frequency := wrapInt32 (((find st.cacheEntries s).getD CacheEntry.zero).frequency + 1) }
      else find st.cacheEntries t := by
  simp only [incrementAccessCount, find_update, find_subscript L hnd]
  by_cases ht : t = s
  · simp [ht]
  · simp [ht]

theorem find_incrementAccessCount_of_find (L : Layout) {st : State} {s : Int} {e : CacheEntry}
    (h : find st.cacheEntries s = some e) :
    find (incrementAccessCount L st s).cacheEntries s =
      some { e with frequency := wrapInt32 (e.frequency + 1) } := by
  simp [incrementAccessCount, find_update, subscript_of_find h, h]

theorem insertSet_keys_nodup (L : Layout) {st : State} (hnd : (keys st.cacheEntries).Nodup)
    (s a : Int) : (keys (insertSet L st s a).cacheEntries).Nodup := by
  simp only [insertSet, keys_update]
  exact keys_subscript_nodup L s hnd

theorem incrementAccessCount_keys_nodup (L : Layout) {st : State}
    (hnd : (keys st.cacheEntries).Nodup) (s : Int) :
    (keys (incrementAccessCount L st s).cacheEntries).Nodup := by
  simp only [incrementAccessCount, keys_update]
  exact keys_subscript_nodup L s hnd

theorem WF_empty : State.empty.WF := by
  simp [State.WF, State.empty, keys]

theorem WF_insertSet (L : Layout) {st : State} (h : st.WF) {s : Int} (hs : InIntRange s)
    (a : Int) : (insertSet L st s a).WF := by
  refine ⟨insertSet_keys_nodup L h.1 s a, ?_⟩
  intro p hp
  simp only [insertSet] at hp
  rcases mem_update hp with hp | ⟨e, _, hp⟩
  · rcases mem_subscript hp with hp | hp
    · exact h.2 p hp
    · rw [hp]; exact ⟨hs, inRange_zero⟩
  · rw [hp]; exact ⟨hs, inRange_zero⟩

theorem WF_incrementAccessCount (L : Layout) {st : State} (h : st.WF) {s : Int}
    (hs : InIntRange s) : (incrementAccessCount L st s).WF := by
  refine ⟨incrementAccessCount_keys_nodup L h.1 s, ?_⟩
  intro p hp
  simp only [incrementAccessCount] at hp
  rcases mem_update hp with hp | ⟨e, _, hp⟩
  · rcases mem_subscript hp with hp | hp
    · exact h.2 p hp
    · rw [hp]; exact ⟨hs, inRange_zero⟩
  · rw [hp]; exact ⟨hs, wrapInt32_inRange _⟩

theorem WF_step (L : Layout) {st : State} (h : st.WF) (op : Op)
    (hop : ∀ s a, op = .insertSet s a → InIntRange s)
    (hop' : ∀ s, op = .incrementAccessCount s → InIntRange s) : (step L st op).WF := by
  cases op with
  | insertSet s a => exact WF_insertSet L h (hop s a rfl) a
  | findLeastUsedSet => exact h
  | incrementAccessCount s => exact WF_incrementAccessCount L h (hop' s rfl)

theorem WF_frequency {st : State} (h : st.WF) {s : Int} {e : CacheEntry}
    (hf : find st.cacheEntries s = some e) : InIntRange e.frequency :=
  (h.2 _ (mem_of_find hf)).2

theorem find_incrementTimes (L : Layout) (s : Int) (n : Nat) :
    ∀ (st : State) (e : CacheEntry), find st.cacheEntries s = some e →
      INT_MIN ≤ e.frequency → e.frequency + n ≤ INT_MAX →
      find (incrementTimes L st s n).cacheEntries s =
        some { e with frequency := e.frequency + n } := by
  induction n with
  | zero => intro st e hf _ _; simpa [incrementTimes] using hf
  | succ n ih =>
    intro st e hf hlo hhi
    have hw : wrapInt32 (e.frequency + 1) = e.frequency + 1 := by
      apply wrapInt32_eq_self
      unfold InIntRange
      constructor <;> omega
    have h1 := find_incrementAccessCount_of_find L hf
    rw [hw] at h1
    have h2 := ih (incrementAccessCount L st s) _ h1 (by simp only; omega)
      (by simp only; push_cast at hhi; omega)
    simp only [incrementTimes, h2]
    congr 2
    push_cast
    omega

/-- The state `saturatedState` arises after `INT_MAX` accesses to one registered set. -/
theorem saturated_reachable (L : Layout) :
    frequencyOf (incrementTimes L (insertSet L State.empty 5 0) 5 2147483647) 5
      = some 2147483647 := by
  have h0 : find (insertSet L State.empty 5 0).cacheEntries 5
      = some { frequency := 0, ways := insertWays 0 } := by
    rw [find_insertSet L (by simp [State.empty, keys])]
    simp
  have h := find_incrementTimes L 5 2147483647 _ _ h0 (by decide) (by decide)
  simp [frequencyOf, h]

/-! ## C1: the set returned by `findLeastUsedSet` -/

/-- C1, as stated, fails in two ways.  When every counter equals `INT_MAX` the loop never
replaces its initial candidate and the result is `INT_MAX`, which is no registered
identifier; and a negative identifier comes back increased by `2^32`. -/
theorem findLeastUsedSet_registered_least_counterexample :
    (saturatedState.WF ∧ saturatedState.cacheEntries ≠ [] ∧
      findLeastUsedSet saturatedState = 2147483647 ∧
      ¬ ∃ p ∈ saturatedState.cacheEntries, (findLeastUsedSet saturatedState : Int) = p.1 ∧
          ∀ q ∈ saturatedState.cacheEntries, p.2.frequency ≤ q.2.frequency) ∧
    (negativeIdState.WF ∧ negativeIdState.cacheEntries ≠ [] ∧
      findLeastUsedSet negativeIdState = 4294967295 ∧
      ¬ ∃ p ∈ negativeIdState.cacheEntries, (findLeastUsedSet negativeIdState : Int) = p.1 ∧
          ∀ q ∈ negativeIdState.cacheEntries, p.2.frequency ≤ q.2.frequency) := by
  decide

/-- C1, amended: in every tracker state where some registered set has a counter below
`INT_MAX`, `findLeastUsedSet` returns the identifier, converted to `uint32_t`, of a
registered set whose counter is at most the counter of every registered set; the
converted value is the identifier itself when the identifier is not negative. -/
theorem findLeastUsedSet_least (st : State)
    (h : ∃ p ∈ st.cacheEntries, p.2.frequency < INT_MAX) :
    ∃ p ∈ st.cacheEntries, findLeastUsedSet st = toUInt32 p.1 ∧
      (0 ≤ p.1 → p.1 ≤ INT_MAX → (findLeastUsedSet st : Int) = p.1) ∧
      ∀ q ∈ st.cacheEntries, p.2.frequency ≤ q.2.frequency := by
  obtain ⟨l₁, p, l₂, hm, hscan, _, h1, h2⟩ := scan_spec st.cacheEntries (INT_MAX, INT_MAX) h
  have hres : findLeastUsedSet st = toUInt32 p.1 := by simp [findLeastUsedSet, hscan]
  refine ⟨p, by simp [hm], hres, ?_, ?_⟩
  · intro h0 hmax
    rw [hres]
    exact toUInt32_eq_self h0 hmax
  · intro q hq
    rw [hm] at hq
    simp only [List.mem_append, List.mem_cons] at hq
    rcases hq with hq | hq | hq
    · exact le_of_lt (h1 q hq)
    · rw [hq]
    · exact h2 q hq

/-- C1, amended, at the state with sets 1, 2, 3 and counters 2, 1, 0. -/
theorem findLeastUsedSet_least_witness :
    (∃ p ∈ threeSetState.cacheEntries, p.2.frequency < INT_MAX) ∧
    ∃ p ∈ threeSetState.cacheEntries, findLeastUsedSet threeSetState = toUInt32 p.1 ∧
      (0 ≤ p.1 → p.1 ≤ INT_MAX → (findLeastUsedSet threeSetState : Int) = p.1) ∧
      ∀ q ∈ threeSetState.cacheEntries, p.2.frequency ≤ q.2.frequency :=
  ⟨by decide, findLeastUsedSet_least threeSetState (by decide)⟩

/-! ## C2: `incrementAccessCount` on a registered set -/

/-- C2, as stated, fails when the counter is `INT_MAX`: the set is registered, and after
the call its counter is `INT_MIN`, not `INT_MAX + 1`. -/
theorem incrementAccessCount_plus_one_counterexample :
    saturatedState.WF ∧ Registered saturatedState 5 ∧
      frequencyOf saturatedState 5 = some 2147483647 ∧
      frequencyOf (incrementAccessCount Layout.front saturatedState 5) 5
        = some (-2147483648) ∧
      frequencyOf (incrementAccessCount Layout.front saturatedState 5) 5
        ≠ some (2147483647 + 1) := by
  decide

/-- C2, amended: for a registered set `s` with counter `f`, one call of
`incrementAccessCount(s)` makes the counter `f + 1` when `f < INT_MAX`, and `n` calls in a
row make it `f + n` whenever `f + n ≤ INT_MAX`. -/
theorem incrementAccessCount_raises (L : Layout) (st : State) (s f : Int) (hwf : st.WF)
    (hf : frequencyOf st s = some f) :
    (f < INT_MAX → frequencyOf (incrementAccessCount L st s) s = some (f + 1)) ∧
    ∀ n : Nat, f + n ≤ INT_MAX → frequencyOf (incrementTimes L st s n) s = some (f + n) := by
  unfold frequencyOf at hf
  cases he : find st.cacheEntries s with
  | none => simp [he] at hf
  | some e =>
    simp only [he, Option.map_some', Option.some.injEq] at hf
    have hlo : INT_MIN ≤ e.frequency := (WF_frequency hwf he).1
    have hn : ∀ n : Nat, f + n ≤ INT_MAX →
        frequencyOf (incrementTimes L st s n) s = some (f + n) := by
      intro n hle
      rw [← hf] at hle
      simp [frequencyOf, find_incrementTimes L s n st e he hlo hle, hf]
    refine ⟨?_, hn⟩
    intro hlt
    have h1 := hn 1 (by unfold INT_MAX at *; push_cast; omega)
    simpa [incrementTimes] using h1

/-- C2, amended, at the state with sets 1, 2, 3: set 2 has counter 1. -/
theorem incrementAccessCount_raises_witness :
    threeSetState.WF ∧ frequencyOf threeSetState 2 = some 1 ∧
    ((1 < INT_MAX →
        frequencyOf (incrementAccessCount Layout.back threeSetState 2) 2 = some (1 + 1)) ∧
      ∀ n : Nat, (1 : Int) + n ≤ INT_MAX →
        frequencyOf (incrementTimes Layout.back threeSetState 2 n) 2 = some (1 + n)) :=
  ⟨by decide, by decide,
    incrementAccessCount_raises Layout.back threeSetState 2 1 (by decide) (by decide)⟩

/-! ## C3: registration starts the counter at 0 -/

theorem frequencyOf_insertSet_self (L : Layout) (st : State) (s a : Int) :
    frequencyOf (insertSet L st s a) s = some 0 := by
  have h := find_subscript_self_isSome L st.cacheEntries s
  cases hf : find (subscript L st.cacheEntries s) s with
  | none => simp [hf] at h
  | some e => simp [frequencyOf, insertSet, find_update, hf]

/-- C3: after `insertSet(s, a)` the set `s` is registered and its counter is 0, in every
state, whether or not `s` was registered before; in particular registering `s`, accessing
it three times and registering it again leaves its counter at 0. -/
theorem insertSet_frequency_zero (L : Layout) (st : State) (s a : Int) :
    Registered (insertSet L st s a) s ∧ frequencyOf (insertSet L st s a) s = some 0 ∧
    ∀ a' : Int,
      frequencyOf (insertSet L (incrementTimes L (insertSet L st s a) s 3) s a') s = some 0 := by
  refine ⟨?_, frequencyOf_insertSet_self L st s a, fun a' => frequencyOf_insertSet_self L _ s a'⟩
  have h := frequencyOf_insertSet_self L st s a
  unfold frequencyOf at h
  unfold Registered
  cases hf : find (insertSet L st s a).cacheEntries s with
  | none => simp [hf] at h
  | some e => rfl

/-! ## C4: `findLeastUsedSet` on an empty map -/

/-- C4, as stated, fails: on the freshly constructed tracker `findLeastUsedSet` returns the
number 2147483647, the `INT_MAX` it initialises its candidate with, as an ordinary result;
the same number comes back when set 2147483647 is the only registered set. -/
theorem findLeastUsedSet_empty_counterexample :
    State.empty.cacheEntries = [] ∧ findLeastUsedSet State.empty = 2147483647 ∧
      (2147483647 : Int) = INT_MAX ∧
      findLeastUsedSet (insertSet Layout.front State.empty 2147483647 1)
        = findLeastUsedSet State.empty := by
  decide

/-- C4, amended: in every tracker state with no registered set, `findLeastUsedSet` returns
the placeholder 2147483647 (`INT_MAX`) as its result, whatever the min-heap holds. -/
theorem findLeastUsedSet_of_empty (st : State) (h : st.cacheEntries = []) :
    findLeastUsedSet st = 2147483647 := by
  simp [findLeastUsedSet, h, scan]
  decide

/-- C4, amended, at the freshly constructed tracker. -/
theorem findLeastUsedSet_of_empty_witness :
    State.empty.cacheEntries = [] ∧ findLeastUsedSet State.empty = 2147483647 :=
  ⟨rfl, findLeastUsedSet_of_empty State.empty rfl⟩

/-! ## C5: `incrementAccessCount` on an unregistered set -/

/-- C5, as stated, fails: on the freshly constructed tracker, where set 5 is not
registered, `incrementAccessCount(5)` changes the map: afterwards set 5 is registered with
counter 1. -/
theorem incrementAccessCount_unknown_counterexample :
    State.empty.WF ∧ ¬ Registered State.empty 5 ∧
      (incrementAccessCount Layout.front State.empty 5).cacheEntries
        ≠ State.empty.cacheEntries ∧
      Registered (incrementAccessCount Layout.front State.empty 5) 5 ∧
      frequencyOf (incrementAccessCount Layout.front State.empty 5) 5 = some 1 := by
  refine ⟨by decide, by decide, ?_, by decide, by decide⟩
  simp [incrementAccessCount, subscript, find, State.empty, Layout.front, update]

/-- C5, amended: for every tracker state and every identifier `s` that is not registered,
`incrementAccessCount(s)` completes as an ordinary call and adds one entry to the map: `s`
becomes registered with counter 1, the number of entries grows by one, and the entry of
every other identifier is as before. -/
theorem incrementAccessCount_unknown_creates (L : Layout) (st : State) (s : Int)
    (hwf : st.WF) (hs : ¬ Registered st s) :
    Registered (incrementAccessCount L st s) s ∧
      frequencyOf (incrementAccessCount L st s) s = some 1 ∧
      (incrementAccessCount L st s).cacheEntries.length = st.cacheEntries.length + 1 ∧
      ∀ t : Int, t ≠ s →
        find (incrementAccessCount L st s).cacheEntries t = find st.cacheEntries t := by
  have hnone : find st.cacheEntries s = none := by
    unfold Registered at hs
    cases hf : find st.cacheEntries s with
    | none => rfl
    | some e => simp [hf] at hs
  have hfind := find_incrementAccessCount L hwf.1 s
  refine ⟨?_, ?_, ?_, ?_⟩
  · simp [Registered, hfind s]
  · simp only [frequencyOf, hfind s, hnone]
    decide
  · simp [incrementAccessCount, length_update, length_subscript, hnone]
  · intro t ht
    simp [hfind t, ht]

/-- C5, amended, at the state with sets 1, 2, 3, where set 9 is not registered. -/
theorem incrementAccessCount_unknown_creates_witness :
    threeSetState.WF ∧ ¬ Registered threeSetState 9 ∧
    (Registered (incrementAccessCount Layout.back threeSetState 9) 9 ∧
      frequencyOf (incrementAccessCount Layout.back threeSetState 9) 9 = some 1 ∧
      (incrementAccessCount Layout.back threeSetState 9).cacheEntries.length
        = threeSetState.cacheEntries.length + 1 ∧
      ∀ t : Int, t ≠ 9 →
        find (incrementAccessCount Layout.back threeSetState 9).cacheEntries t
          = find threeSetState.cacheEntries t) :=
  ⟨by decide, by decide,
    incrementAccessCount_unknown_creates Layout.back threeSetState 9 (by decide) (by decide)⟩

/-! ## C6: a unique least counter -/

theorem findLeastUsedSet_unique_min (st : State) (p : Int × CacheEntry)
    (hp : p ∈ st.cacheEntries)
    (hmin : ∀ q ∈ st.cacheEntries, q ≠ p → p.2.frequency < q.2.frequency)
    (hlt : p.2.frequency < INT_MAX) : findLeastUsedSet st = toUInt32 p.1 := by
  obtain ⟨l₁, p', l₂, hm, hscan, _, h1, h2⟩ :=
    scan_spec st.cacheEntries (INT_MAX, INT_MAX) ⟨p, hp, hlt⟩
  have hp' : p' ∈ st.cacheEntries := by simp [hm]
  have hle : p'.2.frequency ≤ p.2.frequency := by
    rw [hm] at hp
    simp only [List.mem_append, List.mem_cons] at hp
    rcases hp with hq | hq | hq
    · exact le_of_lt (h1 p hq)
    · rw [hq]
    · exact h2 p hq
  have heq : p' = p := by
    by_contra hne
    exact absurd (hmin p' hp' hne) (not_lt.mpr hle)
  simp [findLeastUsedSet, hscan, heq]

theorem eq_of_mem_of_key_eq {m : EntryMap} (hnd : (keys m).Nodup) {p q : Int × CacheEntry}
    (hp : p ∈ m) (hq : q ∈ m) (hk : q.1 = p.1) : q = p := by
  obtain ⟨k, e⟩ := p
  obtain ⟨k', e'⟩ := q
  simp only at hk
  subst hk
  have h1 := find_of_mem hnd hp
  have h2 := find_of_mem hnd hq
  rw [h1] at h2
  simp only [Option.some.injEq] at h2
  rw [h2]

theorem find_scenarioABC (L : Layout) (A a B b C c : Int) (hAB : A ≠ B) (hAC : A ≠ C)
    (hBC : B ≠ C) :
    (keys (scenarioABC L A a B b C c).cacheEntries).Nodup ∧
    ∀ t : Int, (find (scenarioABC L A a B b C c).cacheEntries t).map (·.frequency) =
      if t = A then some 2 else if t = B then some 1 else if t = C then some 0 else none := by
  have n0 : (keys State.empty.cacheEntries).Nodup := by simp [State.empty, keys]
  have n1 := insertSet_keys_nodup L n0 A a
  have n2 := insertSet_keys_nodup L n1 B b
  have n3 := insertSet_keys_nodup L n2 C c
  have n4 := incrementAccessCount_keys_nodup L n3 A
  have n5 := incrementAccessCount_keys_nodup L n4 A
  have n6 := incrementAccessCount_keys_nodup L n5 B
  refine ⟨n6, ?_⟩
  intro t
  have w0 : wrapInt32 1 = 1 := by decide
  have w2' : wrapInt32 2 = 2 := by decide
  have w1 : wrapInt32 (0 + 1) = 1 := by decide
  have w2 : wrapInt32 (1 + 1) = 2 := by decide
  have hBA : B ≠ A := fun h => hAB h.symm
  have hCA : C ≠ A := fun h => hAC h.symm
  have hCB : C ≠ B := fun h => hBC h.symm
  simp only [scenarioABC, find_incrementAccessCount L n5, find_incrementAccessCount L n4,
    find_incrementAccessCount L n3, find_insertSet L n2, find_insertSet L n1,
    find_insertSet L n0]
  by_cases hA : t = A
  · subst hA; simp [hAB, hAC, w0, w1, w2, w2']
  · by_cases hB : t = B
    · subst hB; simp [hBA, hBC, w0, w1]
    · by_cases hC : t = C
      · subst hC; simp [hCA, hCB]
      · simp [hA, hB, hC, State.empty, find]

theorem findLeastUsedSet_scenarioABC (L : Layout) (A a B b C c : Int) (hAB : A ≠ B)
    (hAC : A ≠ C) (hBC : B ≠ C) :
    findLeastUsedSet (scenarioABC L A a B b C c) = toUInt32 C := by
  obtain ⟨hnd, hfind⟩ := find_scenarioABC L A a B b C c hAB hAC hBC
  have hCA : C ≠ A := fun h => hAC h.symm
  have hCB : C ≠ B := fun h => hBC h.symm
  have hC := hfind C
  simp only [hCA, hCB, if_false, if_true] at hC
  cases hf : find (scenarioABC L A a B b C c).cacheEntries C with
  | none => simp [hf] at hC
  | some e =>
    simp only [hf, Option.map_some', Option.some.injEq] at hC
    have hmem := mem_of_find hf
    have h := findLeastUsedSet_unique_min _ (C, e) hmem ?_ (by simp only [hC]; decide)
    · simpa using h
    · intro q hq hne
      have hk : q.1 ≠ C := fun hk => hne (eq_of_mem_of_key_eq hnd hmem hq hk)
      have hq' := hfind q.1
      rw [find_of_mem hnd (by simpa using hq)] at hq'
      rw [if_neg hk] at hq'
      simp only [Option.map_some'] at hq'
      show e.frequency < q.2.frequency
      rw [hC]
      by_cases hA : q.1 = A
      · rw [if_pos hA] at hq'
        have := Option.some.inj hq'
        omega
      · rw [if_neg hA] at hq'
        by_cases hB : q.1 = B
        · rw [if_pos hB] at hq'
          have := Option.some.inj hq'
          omega
        · rw [if_neg hB] at hq'
          exact absurd hq' (by simp)

/-- C6, as stated, fails for a negative identifier and for a lone saturated counter.  With
sets -1 and 3 at counters 0 and 1, set -1 alone has the least counter and the result is
4294967295; the scenario with `A = 1`, `B = 2`, `C = -1` gives 4294967295 as well; and
with set 5 alone at counter `INT_MAX` the result is 2147483647. -/
theorem findLeastUsedSet_unique_least_counterexample :
    (negativeMinState.WF ∧ (-1, { frequency := 0, ways := {0} }) ∈ negativeMinState.cacheEntries ∧
      (∀ q ∈ negativeMinState.cacheEntries, q.1 ≠ -1 → 0 < q.2.frequency) ∧
      findLeastUsedSet negativeMinState = 4294967295 ∧
      (findLeastUsedSet negativeMinState : Int) ≠ -1) ∧
    (findLeastUsedSet (scenarioABC Layout.front 1 2 2 2 (-1) 2) = 4294967295 ∧
      (findLeastUsedSet (scenarioABC Layout.front 1 2 2 2 (-1) 2) : Int) ≠ -1) ∧
    (saturatedState.WF ∧ (∀ q ∈ saturatedState.cacheEntries, q.1 ≠ 5 → 2147483647 < q.2.frequency) ∧
      frequencyOf saturatedState 5 = some 2147483647 ∧
      findLeastUsedSet saturatedState = 2147483647 ∧
      (findLeastUsedSet saturatedState : Int) ≠ 5) := by
  decide

/-- C6, amended: when one registered set has a counter strictly smaller than that of every
other registered set, and below `INT_MAX`, `findLeastUsedSet` returns that set's identifier
converted to `uint32_t` (the identifier itself when it is not negative), for every iteration
order of the map.  After registering distinct `A`, `B`, `C` in an empty tracker and accessing
`A` twice and `B` once, the result is `C` converted to `uint32_t` (`C` itself when `C` is
not negative). -/
theorem findLeastUsedSet_unique_least :
    (∀ (st : State) (p : Int × CacheEntry), st.WF → p ∈ st.cacheEntries →
      (∀ q ∈ st.cacheEntries, q.1 ≠ p.1 → p.2.frequency < q.2.frequency) →
      p.2.frequency < INT_MAX →
      ∀ m' : EntryMap, m'.Perm st.cacheEntries →
        findLeastUsedSet { st with cacheEntries := m' } = toUInt32 p.1 ∧
        (0 ≤ p.1 → (findLeastUsedSet { st with cacheEntries := m' } : Int) = p.1)) ∧
    (∀ (L : Layout) (A a B b C c : Int), A ≠ B → A ≠ C → B ≠ C →
      findLeastUsedSet (scenarioABC L A a B b C c) = toUInt32 C ∧
      (0 ≤ C → C ≤ INT_MAX → (findLeastUsedSet (scenarioABC L A a B b C c) : Int) = C)) := by
  constructor
  · intro st p hwf hp hmin hlt m' hperm
    have hnd : (keys m').Nodup := (hperm.map Prod.fst).nodup_iff.mpr hwf.1
    have hp' : p ∈ m' := hperm.symm.subset hp
    have hres : findLeastUsedSet { st with cacheEntries := m' } = toUInt32 p.1 := by
      apply findLeastUsedSet_unique_min _ p hp' _ hlt
      intro q hq hne
      apply hmin q (hperm.subset hq)
      intro hk
      exact hne (eq_of_mem_of_key_eq hnd hp' hq hk)
    refine ⟨hres, fun h0 => ?_⟩
    rw [hres]
    exact toUInt32_eq_self h0 (hwf.2 p hp).1.2
  · intro L A a B b C c hAB hAC hBC
    have hres := findLeastUsedSet_scenarioABC L A a B b C c hAB hAC hBC
    refine ⟨hres, fun h0 h1 => ?_⟩
    rw [hres]
    exact toUInt32_eq_self h0 h1

/-- C6, amended, at the state with sets 1, 2, 3 (set 3 alone has the least counter), read in
reverse iteration order, and at the scenario with `A = 1`, `B = 2`, `C = 3`. -/
theorem findLeastUsedSet_unique_least_witness :
    (threeSetState.WF ∧
      (findLeastUsedSet { threeSetState with cacheEntries := threeSetState.cacheEntries.reverse }
          = toUInt32 3 ∧
        ((0 : Int) ≤ 3 → (findLeastUsedSet
          { threeSetState with cacheEntries := threeSetState.cacheEntries.reverse } : Int) = 3))) ∧
    (findLeastUsedSet (scenarioABC Layout.back 1 4 2 4 3 4) = toUInt32 3 ∧
      ((0 : Int) ≤ 3 → (3 : Int) ≤ INT_MAX →
        (findLeastUsedSet (scenarioABC Layout.back 1 4 2 4 3 4) : Int) = 3)) :=
  ⟨⟨by decide,
    findLeastUsedSet_unique_least.1 threeSetState (3, { frequency := 0, ways := {0, 1} })
      (by decide) (by simp [threeSetState]) (by decide) (by decide)
      threeSetState.cacheEntries.reverse (List.reverse_perm _)⟩,
   findLeastUsedSet_unique_least.2 Layout.back 1 4 2 4 3 4 (by decide) (by decide) (by decide)⟩

/-! ## C7: counters over one call -/

/-- C7, as stated, fails for `insertSet` on a registered set, which resets the counter: in
the state with sets 1, 2, 3 set 1 has counter 2, and after `insertSet(1, 4)` it has counter
0.  It also fails for `incrementAccessCount` on a counter at `INT_MAX`, which ends at
`INT_MIN`. -/
theorem frequency_monotone_counterexample :
    (threeSetState.WF ∧ frequencyOf threeSetState 1 = some 2 ∧
      frequencyOf (step Layout.front threeSetState (.insertSet 1 4)) 1 = some 0 ∧
      ¬ ((2 : Int) ≤ 0)) ∧
    (saturatedState.WF ∧ frequencyOf saturatedState 5 = some 2147483647 ∧
      frequencyOf (step Layout.front saturatedState (.incrementAccessCount 5)) 5
        = some (-2147483648) ∧
      ¬ ((2147483647 : Int) ≤ -2147483648)) := by
  decide

/-- C7, amended: for every tracker state, every registered set `s` and every call other than
`insertSet` on `s` itself, the counter of `s` after the call is at least its counter before
the call, provided the counter is below `INT_MAX` when the call is
`incrementAccessCount(s)`. -/
theorem frequency_monotone (L : Layout) (st : State) (s f : Int) (op : Op) (hwf : st.WF)
    (hf : frequencyOf st s = some f) (hins : ∀ a, op ≠ .insertSet s a)
    (hinc : op = .incrementAccessCount s → f < INT_MAX) :
    ∃ f', frequencyOf (step L st op) s = some f' ∧ f ≤ f' := by
  cases op with
  | insertSet t a =>
    have hts : s ≠ t := fun h => hins a (by rw [h])
    refine ⟨f, ?_, le_refl f⟩
    simp only [step, frequencyOf, find_insertSet L hwf.1, hts, if_false]
    exact hf
  | findLeastUsedSet => exact ⟨f, hf, le_refl f⟩
  | incrementAccessCount t =>
    by_cases hts : s = t
    · subst hts
      have hlt := hinc rfl
      unfold frequencyOf at hf
      cases he : find st.cacheEntries s with
      | none => simp [he] at hf
      | some e =>
        simp only [he, Option.map_some', Option.some.injEq] at hf
        subst hf
        have hr := WF_frequency hwf he
        have hw : wrapInt32 (e.frequency + 1) = e.frequency + 1 := by
          apply wrapInt32_eq_self
          unfold InIntRange at *
          constructor <;> omega
        refine ⟨e.frequency + 1, ?_, by omega⟩
        simp [step, frequencyOf, find_incrementAccessCount_of_find L he, hw]
    · refine ⟨f, ?_, le_refl f⟩
      simp only [step, frequencyOf, find_incrementAccessCount L hwf.1, hts, if_false]
      exact hf

/-- C7, amended, at the state with sets 1, 2, 3: set 1 has counter 2 and the call is
`incrementAccessCount(1)`. -/
theorem frequency_monotone_witness :
    threeSetState.WF ∧ frequencyOf threeSetState 1 = some 2 ∧
      (∀ a, Op.incrementAccessCount 1 ≠ Op.insertSet 1 a) ∧
      (Op.incrementAccessCount 1 = Op.incrementAccessCount 1 → (2 : Int) < INT_MAX) ∧
      ∃ f', frequencyOf (step Layout.front threeSetState (.incrementAccessCount 1)) 1 = some f' ∧
        2 ≤ f' :=
  ⟨by decide, by decide, fun _ h => Op.noConfusion h, fun _ => by decide,
    frequency_monotone Layout.front threeSetState 1 2 (.incrementAccessCount 1) (by decide)
      (by decide) (fun _ h => Op.noConfusion h) (fun _ => by decide)⟩

/-! ## C8: the way indices recorded by `insertSet` -/

theorem mem_foldl_insert_range (n : Nat) (i : Int) :
    i ∈ (List.range n).foldl (fun (ways : Finset Int) (j : Nat) => insert (j : Int) ways) ∅ ↔
      0 ≤ i ∧ i < n := by
  induction n with
  | zero =>
    simp only [List.range_zero, List.foldl_nil, Finset.not_mem_empty, false_iff]
    push_cast
    omega
  | succ n ih =>
    rw [List.range_succ, List.foldl_append]
    simp only [List.foldl_cons, List.foldl_nil, Finset.mem_insert, ih]
    push_cast
    omega

theorem card_foldl_insert_range (n : Nat) :
    ((List.range n).foldl (fun (ways : Finset Int) (j : Nat) => insert (j : Int) ways) ∅).card
      = n := by
  induction n with
  | zero => simp
  | succ n ih =>
    rw [List.range_succ, List.foldl_append]
    simp only [List.foldl_cons, List.foldl_nil]
    rw [Finset.card_insert_of_not_mem, ih]
    rw [mem_foldl_insert_range]
    omega

theorem mem_insertWays (a i : Int) : i ∈ insertWays a ↔ 0 ≤ i ∧ i < a := by
  unfold insertWays
  rw [mem_foldl_insert_range]
  omega

theorem card_insertWays (a : Int) : (insertWays a).card = a.toNat := by
  unfold insertWays
  exact card_foldl_insert_range _

theorem find_insertSet_self (L : Layout) (st : State) (s a : Int) :
    find (insertSet L st s a).cacheEntries s
      = some { frequency := 0, ways := insertWays a } := by
  have h := find_subscript_self_isSome L st.cacheEntries s
  cases hf : find (subscript L st.cacheEntries s) s with
  | none => simp [hf] at h
  | some e => simp [insertSet, find_update, hf]

/-- C8: after `insertSet(s, a)` the way-index set stored for `s` holds exactly the integers
`i` with `0 ≤ i < a`, whatever was stored for `s` before, and so has `a` elements when
`a ≥ 0`. -/
theorem insertSet_ways (L : Layout) (st : State) (s a : Int) :
    ∃ w : Finset Int, waysOf (insertSet L st s a) s = some w ∧
      (∀ i : Int, i ∈ w ↔ 0 ≤ i ∧ i < a) ∧ (0 ≤ a → (w.card : Int) = a) := by
  refine ⟨insertWays a, by simp [waysOf, find_insertSet_self], mem_insertWays a, ?_⟩
  intro h
  rw [card_insertWays]
  omega

/-- C8 at the state with sets 1, 2, 3, re-registering set 1 (two ways before) with
associativity 4. -/
theorem insertSet_ways_witness :
    ∃ w : Finset Int, waysOf (insertSet Layout.front threeSetState 1 4) 1 = some w ∧
      (∀ i : Int, i ∈ w ↔ 0 ≤ i ∧ i < 4) ∧ ((0 : Int) ≤ 4 → (w.card : Int) = 4) :=
  insertSet_ways Layout.front threeSetState 1 4

/-! ## C9: what `insertSet` leaves alone -/

/-- C9: for every tracker state, `insertSet(s, a)` keeps every identifier `t ≠ s` as it was
(registered exactly when it was before, with the same counter and the same way-index set),
and the number of entries grows by one when `s` was not registered and is unchanged when it
was. -/
theorem insertSet_frame (L : Layout) (st : State) (s a : Int) (hwf : st.WF) :
    (∀ t : Int, t ≠ s →
      (Registered (insertSet L st s a) t ↔ Registered st t) ∧
      frequencyOf (insertSet L st s a) t = frequencyOf st t ∧
      waysOf (insertSet L st s a) t = waysOf st t) ∧
    (¬ Registered st s →
      (insertSet L st s a).cacheEntries.length = st.cacheEntries.length + 1) ∧
    (Registered st s → (insertSet L st s a).cacheEntries.length = st.cacheEntries.length) := by
  refine ⟨?_, ?_, ?_⟩
  · intro t ht
    have h : find (insertSet L st s a).cacheEntries t = find st.cacheEntries t := by
      rw [find_insertSet L hwf.1, if_neg ht]
    simp [Registered, frequencyOf, waysOf, h]
  · intro hs
    have hs' : (find st.cacheEntries s).isSome = false := by
      simpa [Registered] using hs
    simp [insertSet, length_update, length_subscript, hs']
  · intro hs
    have hs' : (find st.cacheEntries s).isSome = true := hs
    simp [insertSet, length_update, length_subscript, hs']

/-- C9 at the state with sets 1, 2, 3 and the call `insertSet(2, 8)`. -/
theorem insertSet_frame_witness :
    threeSetState.WF ∧
    ((∀ t : Int, t ≠ 2 →
      (Registered (insertSet Layout.back threeSetState 2 8) t ↔ Registered threeSetState t) ∧
      frequencyOf (insertSet Layout.back threeSetState 2 8) t = frequencyOf threeSetState t ∧
      waysOf (insertSet Layout.back threeSetState 2 8) t = waysOf threeSetState t) ∧
    (¬ Registered threeSetState 2 →
      (insertSet Layout.back threeSetState 2 8).cacheEntries.length
        = threeSetState.cacheEntries.length + 1) ∧
    (Registered threeSetState 2 →
      (insertSet Layout.back threeSetState 2 8).cacheEntries.length
        = threeSetState.cacheEntries.length)) :=
  ⟨by decide, insertSet_frame Layout.back threeSetState 2 8 (by decide)⟩

/-! ## C10: registration order -/

theorem find_recordAll_congr (L : Layout) (sets : List Int) :
    ∀ st₁ st₂ : State, (keys st₁.cacheEntries).Nodup → (keys st₂.cacheEntries).Nodup →
      (∀ t, find st₁.cacheEntries t = find st₂.cacheEntries t) →
      ∀ t, find (recordAll L st₁ sets).cacheEntries t
        = find (recordAll L st₂ sets).cacheEntries t := by
  induction sets with
  | nil => intro st₁ st₂ _ _ h t; exact h t
  | cons x rest ih =>
    intro st₁ st₂ h₁ h₂ h t
    simp only [recordAll, List.foldl_cons]
    apply ih _ _ (incrementAccessCount_keys_nodup L h₁ x) (incrementAccessCount_keys_nodup L h₂ x)
    intro u
    rw [find_incrementAccessCount L h₁, find_incrementAccessCount L h₂, h x, h u]

/-- C10: from any tracker state, registering `A` then `B` and registering `B` then `A`, for
distinct `A` and `B` and any associativities, give after any further run of
`incrementAccessCount` calls the same registered identifiers and the same counter for every
identifier. -/
theorem insertSet_order_irrelevant (L : Layout) (st : State) (A a B b : Int) (sets : List Int)
    (hwf : st.WF) (hAB : A ≠ B) (t : Int) :
    (Registered (recordAll L (insertSet L (insertSet L st A a) B b) sets) t ↔
      Registered (recordAll L (insertSet L (insertSet L st B b) A a) sets) t) ∧
    frequencyOf (recordAll L (insertSet L (insertSet L st A a) B b) sets) t
      = frequencyOf (recordAll L (insertSet L (insertSet L st B b) A a) sets) t := by
  have nA := insertSet_keys_nodup L hwf.1 A a
  have nB := insertSet_keys_nodup L hwf.1 B b
  have nAB := insertSet_keys_nodup L nA B b
  have nBA := insertSet_keys_nodup L nB A a
  have h0 : ∀ u, find (insertSet L (insertSet L st A a) B b).cacheEntries u
      = find (insertSet L (insertSet L st B b) A a).cacheEntries u := by
    intro u
    rw [find_insertSet L nA, find_insertSet L hwf.1, find_insertSet L nB,
      find_insertSet L hwf.1]
    by_cases hA : u = A
    · have hB : ¬ u = B := fun h => hAB (hA.symm.trans h)
      simp [hA, hAB]
    · simp [hA]
  have h := find_recordAll_congr L sets _ _ nAB nBA h0 t
  simp [Registered, frequencyOf, h]

/-- C10 at the state with sets 1, 2, 3, registering 7 and 8 and then accessing 7, 8, 7, 1. -/
theorem insertSet_order_irrelevant_witness :
    threeSetState.WF ∧ (7 : Int) ≠ 8 ∧
    ((Registered (recordAll Layout.front
        (insertSet Layout.front (insertSet Layout.front threeSetState 7 2) 8 4) [7, 8, 7, 1]) 7 ↔
      Registered (recordAll Layout.front
        (insertSet Layout.front (insertSet Layout.front threeSetState 8 4) 7 2) [7, 8, 7, 1]) 7) ∧
    frequencyOf (recordAll Layout.front
        (insertSet Layout.front (insertSet Layout.front threeSetState 7 2) 8 4) [7, 8, 7, 1]) 7
      = frequencyOf (recordAll Layout.front
        (insertSet Layout.front (insertSet Layout.front threeSetState 8 4) 7 2) [7, 8, 7, 1]) 7) :=
  ⟨by decide, by decide,
    insertSet_order_irrelevant Layout.front threeSetState 7 2 8 4 [7, 8, 7, 1] (by decide)
      (by decide) 7⟩

/-! ## C11: sign of the counters in reachable states -/

theorem incrementTimes_succ (L : Layout) (s : Int) (n : Nat) :
    ∀ st : State, incrementTimes L st s (n + 1)
      = incrementAccessCount L (incrementTimes L st s n) s := by
  induction n with
  | zero => intro st; rfl
  | succ n ih =>
    intro st
    show incrementTimes L (incrementAccessCount L st s) s (n + 1) = _
    rw [ih]
    rfl

theorem run_replicate_increment (L : Layout) (s : Int) (n : Nat) :
    ∀ st : State, run L st (List.replicate n (Op.incrementAccessCount s))
      = incrementTimes L st s n := by
  induction n with
  | zero => intro st; rfl
  | succ n ih =>
    intro st
    rw [List.replicate_succ]
    show run L (incrementAccessCount L st s) (List.replicate n (Op.incrementAccessCount s)) = _
    rw [ih]
    rfl

theorem run_cons_insertSet (L : Layout) (st : State) (s a : Int) (ops : List Op) :
    run L st (Op.insertSet s a :: ops) = run L (insertSet L st s a) ops := rfl

theorem find_run_overflowRun (L : Layout) :
    find (run L State.empty overflowRun).cacheEntries 5
      = some { frequency := -2147483648, ways := insertWays 0 } := by
  have h0 : find (insertSet L State.empty 5 0).cacheEntries 5
      = some { frequency := 0, ways := insertWays 0 } := find_insertSet_self L _ 5 0
  have h1 := find_incrementTimes L 5 2147483647 _ _ h0 (by decide) (by decide)
  have h2 := find_incrementAccessCount_of_find L h1
  have hrun : run L State.empty overflowRun
      = incrementAccessCount L (incrementTimes L (insertSet L State.empty 5 0) 5 2147483647) 5 := by
    unfold overflowRun
    rw [run_cons_insertSet, run_replicate_increment]
    exact incrementTimes_succ L 5 2147483647 _
  rw [hrun, h2]
  simp only [Option.some.injEq, CacheEntry.mk.injEq, and_true]
  decide

theorem countAccesses_append (s : Int) (l₁ l₂ : List Op) :
    countAccesses s (l₁ ++ l₂) = countAccesses s l₁ + countAccesses s l₂ := by
  induction l₁ with
  | nil => simp [countAccesses]
  | cons op rest ih =>
    cases op with
    | insertSet t a => simpa [countAccesses] using ih
    | findLeastUsedSet => simpa [countAccesses] using ih
    | incrementAccessCount t =>
      show (if t = s then 1 else 0) + countAccesses s (rest ++ l₂)
        = ((if t = s then 1 else 0) + countAccesses s rest) + countAccesses s l₂
      rw [ih]
      omega

theorem countAccesses_replicate (s t : Int) (n : Nat) :
    countAccesses s (List.replicate n (Op.incrementAccessCount t)) = if t = s then n else 0 := by
  induction n with
  | zero => simp [countAccesses]
  | succ n ih =>
    rw [List.replicate_succ]
    simp only [countAccesses, ih]
    split <;> omega

theorem countAccesses_cons_insertSet (s t a : Int) (rest : List Op) :
    countAccesses s (Op.insertSet t a :: rest) = countAccesses s rest := rfl

theorem countAccesses_balancedRun (s : Int) : (countAccesses s balancedRun : Int) ≤ INT_MAX := by
  unfold balancedRun
  rw [countAccesses_cons_insertSet, countAccesses_cons_insertSet, countAccesses_append,
    countAccesses_replicate, countAccesses_replicate]
  unfold INT_MAX
  split <;> split <;> omega

theorem countIncrements_append (l₁ l₂ : List Op) :
    countIncrements (l₁ ++ l₂) = countIncrements l₁ + countIncrements l₂ := by
  induction l₁ with
  | nil => simp [countIncrements]
  | cons op rest ih =>
    cases op with
    | insertSet t a => simpa [countIncrements] using ih
    | findLeastUsedSet => simpa [countIncrements] using ih
    | incrementAccessCount t =>
      show countIncrements (rest ++ l₂) + 1 = (countIncrements rest + 1) + countIncrements l₂
      rw [ih]
      omega

theorem countIncrements_replicate (t : Int) (n : Nat) :
    countIncrements (List.replicate n (Op.incrementAccessCount t)) = n := by
  induction n with
  | zero => rfl
  | succ n ih => rw [List.replicate_succ]; simp only [countIncrements, ih]

theorem countIncrements_cons_insertSet (t a : Int) (rest : List Op) :
    countIncrements (Op.insertSet t a :: rest) = countIncrements rest := rfl

theorem countIncrements_balancedRun : countIncrements balancedRun = 2147483648 := by
  unfold balancedRun
  rw [countIncrements_cons_insertSet, countIncrements_cons_insertSet, countIncrements_append,
    countIncrements_replicate, countIncrements_replicate]

/-- Counters stay in `0 .. INT_MAX` along a run in which no call increments a counter that is
at `INT_MAX`. -/
theorem frequency_range_of_overflowFree (L : Layout) (ops : List Op) :
    ∀ st : State, (keys st.cacheEntries).Nodup →
      (∀ p ∈ st.cacheEntries, 0 ≤ p.2.frequency ∧ p.2.frequency ≤ INT_MAX) →
      overflowFree L st ops = true →
      ∀ p ∈ (run L st ops).cacheEntries, 0 ≤ p.2.frequency ∧ p.2.frequency ≤ INT_MAX := by
  induction ops with
  | nil => intro st _ h _ p hp; exact h p hp
  | cons op rest ih =>
    intro st hnd h hfree
    cases op with
    | insertSet s a =>
      apply ih (insertSet L st s a) (insertSet_keys_nodup L hnd s a) _ hfree
      intro p hp
      simp only [insertSet] at hp
      rcases mem_update hp with hp | ⟨e, _, hp⟩
      · rcases mem_subscript hp with hp | hp
        · exact h p hp
        · rw [hp]; exact ⟨le_refl _, zero_le_INT_MAX⟩
      · rw [hp]; exact ⟨le_refl _, zero_le_INT_MAX⟩
    | findLeastUsedSet => exact ih st hnd h hfree
    | incrementAccessCount s =>
      simp only [overflowFree, Bool.and_eq_true, decide_eq_true_eq] at hfree
      apply ih (incrementAccessCount L st s) (incrementAccessCount_keys_nodup L hnd s) _ hfree.2
      intro p hp
      simp only [incrementAccessCount] at hp
      rcases mem_update hp with hp | ⟨e, he, hp⟩
      · rcases mem_subscript hp with hp | hp
        · exact h p hp
        · rw [hp]; exact ⟨le_refl _, zero_le_INT_MAX⟩
      · have hfind : find (subscript L st.cacheEntries s) s = some e :=
          find_of_mem (keys_subscript_nodup L s hnd) he
        rw [find_subscript L hnd, if_pos rfl] at hfind
        have he' : 0 ≤ e.frequency ∧ e.frequency < INT_MAX := by
          cases hf : find st.cacheEntries s with
          | none =>
            simp only [hf, Option.getD_none, Option.some.injEq] at hfind
            rw [← hfind]
            exact ⟨le_refl _, zero_lt_INT_MAX⟩
          | some e₀ =>
            simp only [hf, Option.getD_some, Option.some.injEq] at hfind
            rw [← hfind]
            have hb := h _ (mem_of_find hf)
            have hne : e₀.frequency ≠ INT_MAX := by
              intro heq
              apply hfree.1
              simp [frequencyOf, hf, heq]
            exact ⟨hb.1, lt_of_le_of_ne hb.2 hne⟩
        have hw : wrapInt32 (e.frequency + 1) = e.frequency + 1 := by
          apply wrapInt32_eq_self
          unfold InIntRange INT_MIN
          unfold INT_MAX at *
          constructor <;> omega
        rw [hp]
        simp only [hw]
        unfold INT_MAX at *
        constructor <;> omega

/-- Each counter is bounded by the number of accesses to its own set. -/
theorem frequency_bounds_run (L : Layout) (ops : List Op) :
    ∀ (st : State) (c : Int → Nat),
      (∀ p ∈ st.cacheEntries, 0 ≤ p.2.frequency ∧ p.2.frequency ≤ c p.1) →
      (∀ s : Int, (c s : Int) + countAccesses s ops ≤ INT_MAX) →
      ∀ p ∈ (run L st ops).cacheEntries,
        0 ≤ p.2.frequency ∧ p.2.frequency ≤ (c p.1 : Int) + countAccesses p.1 ops := by
  induction ops with
  | nil => intro st c h _ p hp; simpa [countAccesses, run] using h p hp
  | cons op rest ih =>
    intro st c h hc
    cases op with
    | insertSet s a =>
      apply ih (insertSet L st s a) c _ hc
      intro p hp
      simp only [insertSet] at hp
      rcases mem_update hp with hp | ⟨e, _, hp⟩
      · rcases mem_subscript hp with hp | hp
        · exact h p hp
        · rw [hp]; simp [CacheEntry.zero]
      · rw [hp]; simp
    | findLeastUsedSet => exact ih st c h hc
    | incrementAccessCount s =>
      have hc' : ∀ t : Int, (((fun k => if k = s then c k + 1 else c k) t : Nat) : Int)
          + countAccesses t rest ≤ INT_MAX := by
        intro t
        have := hc t
        simp only [countAccesses] at this
        by_cases hts : t = s
        · subst hts; simp only [if_true] at this ⊢; push_cast at this ⊢; omega
        · have hst : ¬ s = t := fun h => hts h.symm
          simp only [hts, hst, if_false] at this ⊢; push_cast at this ⊢; omega
      have hstep : ∀ p ∈ (incrementAccessCount L st s).cacheEntries,
          0 ≤ p.2.frequency ∧
            p.2.frequency ≤ (((fun k => if k = s then c k + 1 else c k) p.1 : Nat) : Int) := by
        intro p hp
        simp only [incrementAccessCount] at hp
        have hold : ∀ q ∈ subscript L st.cacheEntries s,
            0 ≤ q.2.frequency ∧ q.2.frequency ≤ (c q.1 : Int) := by
          intro q hq
          rcases mem_subscript hq with hq | hq
          · exact h q hq
          · rw [hq]; simp [CacheEntry.zero]
        rcases mem_update hp with hp | ⟨e, he, hp⟩
        · have hb := hold p hp
          refine ⟨hb.1, ?_⟩
          show p.2.frequency ≤ ((if p.1 = s then c p.1 + 1 else c p.1 : Nat) : Int)
          split <;> push_cast <;> omega
        · have hb := hold _ he
          simp only at hb
          have hcs := hc s
          simp only [countAccesses, if_true] at hcs
          have hw : wrapInt32 (e.frequency + 1) = e.frequency + 1 := by
            apply wrapInt32_eq_self
            unfold InIntRange INT_MIN
            unfold INT_MAX at *
            push_cast at hcs
            constructor <;> omega
          rw [hp]
          simp only [hw, if_true]
          push_cast
          omega
      intro p hp
      have hb := ih (incrementAccessCount L st s) _ hstep hc' p hp
      refine ⟨hb.1, ?_⟩
      have h2 := hb.2
      simp only [countAccesses]
      by_cases hps : p.1 = s
      · have hsp : s = p.1 := hps.symm
        simp only [hps, if_true] at h2 ⊢
        push_cast at h2 ⊢
        omega
      · have hsp : ¬ s = p.1 := fun h => hps h.symm
        simp only [hps, hsp, if_false] at h2 ⊢
        push_cast at h2 ⊢
        omega

/-- C11, as stated, fails once a counter overflows: after registering set 5 and accessing it
`2^31` times, starting from the empty tracker, the entry of set 5 has counter `-2147483648`. -/
theorem frequency_nonneg_counterexample :
    countIncrements overflowRun = 2147483648 ∧ countAccesses 5 overflowRun = 2147483648 ∧
    frequencyOf (run Layout.front State.empty overflowRun) 5 = some (-2147483648) ∧
    ∃ p ∈ (run Layout.front State.empty overflowRun).cacheEntries, ¬ 0 ≤ p.2.frequency := by
  have h := find_run_overflowRun Layout.front
  refine ⟨?_, ?_, by simp [frequencyOf, h], ⟨_, mem_of_find h, by decide⟩⟩
  swap
  · unfold overflowRun
    rw [countAccesses_cons_insertSet, countAccesses_replicate, if_pos rfl]
  have hc : ∀ (s : Int) (n : Nat),
      countIncrements (List.replicate n (Op.incrementAccessCount s)) = n := by
    intro s n
    induction n with
    | zero => rfl
    | succ n ih => rw [List.replicate_succ]; simp only [countIncrements, ih]
  have hcons : ∀ (s a : Int) (rest : List Op),
      countIncrements (Op.insertSet s a :: rest) = countIncrements rest := fun _ _ _ => rfl
  unfold overflowRun
  rw [hcons]
  exact hc 5 2147483648

/-- C11, amended: in every tracker state reached from the empty tracker by a finite sequence
of `insertSet`, `incrementAccessCount` and `findLeastUsedSet` calls in which no
`incrementAccessCount` call finds the counter of its set at `INT_MAX`, the counter of every
entry is non-negative; this covers every sequence in which no single identifier is passed to
`incrementAccessCount` more than `INT_MAX` times. -/
theorem frequency_nonneg_reachable (L : Layout) (ops : List Op) :
    (overflowFree L State.empty ops = true →
      ∀ p ∈ (run L State.empty ops).cacheEntries, 0 ≤ p.2.frequency) ∧
    ((∀ s : Int, (countAccesses s ops : Int) ≤ INT_MAX) →
      ∀ p ∈ (run L State.empty ops).cacheEntries, 0 ≤ p.2.frequency) := by
  constructor
  · intro hfree p hp
    exact (frequency_range_of_overflowFree L ops State.empty (by simp [State.empty, keys])
      (by simp [State.empty]) hfree p hp).1
  · intro hcount p hp
    exact (frequency_bounds_run L ops State.empty (fun _ => 0) (by simp [State.empty])
      (by intro s; simpa using hcount s) p hp).1

/-- C11, amended, at a short run with an access to an unregistered set, and at a run with
`2^31` accesses in total, `2^30` to each of two sets. -/
theorem frequency_nonneg_reachable_witness :
    (overflowFree Layout.back State.empty shortRun = true ∧
      ∀ p ∈ (run Layout.back State.empty shortRun).cacheEntries, 0 ≤ p.2.frequency) ∧
    ((∀ s : Int, (countAccesses s balancedRun : Int) ≤ INT_MAX) ∧
      countIncrements balancedRun = 2147483648 ∧
      ∀ p ∈ (run Layout.back State.empty balancedRun).cacheEntries, 0 ≤ p.2.frequency) :=
  ⟨⟨by decide, (frequency_nonneg_reachable Layout.back shortRun).1 (by decide)⟩,
    ⟨countAccesses_balancedRun, countIncrements_balancedRun,
      (frequency_nonneg_reachable Layout.back balancedRun).2 countAccesses_balancedRun⟩⟩

/-! ## C12: which calls touch an entry -/

/-- C12, as stated, fails in its second half: `incrementAccessCount(5)` on the empty tracker
creates the entry of set 5, and `insertSet(1, 4)` changes the existing entry of set 1 (its
counter goes from 2 to 0). -/
theorem entries_lifecycle_counterexample :
    (¬ Registered State.empty 5 ∧
      Registered (step Layout.front State.empty (.incrementAccessCount 5)) 5) ∧
    (Registered threeSetState 1 ∧ frequencyOf threeSetState 1 = some 2 ∧
      frequencyOf (step Layout.front threeSetState (.insertSet 1 4)) 1 = some 0) := by
  decide

/-- C12, amended: `findLeastUsedSet` leaves the map and the min-heap as they are; the entry
of an identifier `t` is created or changed only by `insertSet(t, _)` or
`incrementAccessCount(t)`; and the min-heap is changed only by `insertSet`. -/
theorem findLeastUsedSet_pure (L : Layout) (st : State) (hwf : st.WF) :
    ((step L st .findLeastUsedSet).cacheEntries = st.cacheEntries ∧
      (step L st .findLeastUsedSet).minHeap = st.minHeap) ∧
    (∀ (op : Op) (t : Int), find (step L st op).cacheEntries t ≠ find st.cacheEntries t →
      (∃ a, op = .insertSet t a) ∨ op = .incrementAccessCount t) ∧
    (∀ op : Op, (step L st op).minHeap ≠ st.minHeap → ∃ s a, op = .insertSet s a) := by
  refine ⟨⟨rfl, rfl⟩, ?_, ?_⟩
  · intro op t hne
    cases op with
    | insertSet s a =>
      by_cases hts : t = s
      · exact Or.inl ⟨a, by rw [hts]⟩
      · exact absurd (by simp [step, find_insertSet L hwf.1, hts]) hne
    | findLeastUsedSet => exact absurd rfl hne
    | incrementAccessCount s =>
      by_cases hts : t = s
      · exact Or.inr (by rw [hts])
      · exact absurd (by simp [step, find_incrementAccessCount L hwf.1, hts]) hne
  · intro op hne
    cases op with
    | insertSet s a => exact ⟨s, a, rfl⟩
    | findLeastUsedSet => exact absurd rfl hne
    | incrementAccessCount s => exact absurd rfl hne

/-- C12, amended, at the state with sets 1, 2, 3. -/
theorem findLeastUsedSet_pure_witness :
    threeSetState.WF ∧
    (((step Layout.front threeSetState .findLeastUsedSet).cacheEntries
        = threeSetState.cacheEntries ∧
      (step Layout.front threeSetState .findLeastUsedSet).minHeap = threeSetState.minHeap) ∧
    (∀ (op : Op) (t : Int),
      find (step Layout.front threeSetState op).cacheEntries t
        ≠ find threeSetState.cacheEntries t →
      (∃ a, op = .insertSet t a) ∨ op = .incrementAccessCount t) ∧
    (∀ op : Op, (step Layout.front threeSetState op).minHeap ≠ threeSetState.minHeap →
      ∃ s a, op = .insertSet s a)) :=
  ⟨by decide, findLeastUsedSet_pure Layout.front threeSetState (by decide)⟩

/-! ## C13: ties -/

theorem scan_append (l₁ l₂ : EntryMap) (acc : Int × Int) :
    scan (l₁ ++ l₂) acc = scan l₂ (scan l₁ acc) := by
  simp [scan, List.foldl_append]

theorem scan_snd_gt (l : EntryMap) (f : Int) :
    ∀ acc : Int × Int, f < acc.2 → (∀ q ∈ l, f < q.2.frequency) → f < (scan l acc).2 := by
  induction l with
  | nil => intro acc h _; exact h
  | cons x rest ih =>
    intro acc h hl
    rw [scan_cons]
    apply ih _ _ (fun q hq => hl q (by simp [hq]))
    unfold scanStep
    split
    · exact hl x (by simp)
    · exact h

theorem scan_first_min (l₁ l₂ : EntryMap) (p : Int × CacheEntry) (acc : Int × Int)
    (hacc : p.2.frequency < acc.2) (h₁ : ∀ q ∈ l₁, p.2.frequency < q.2.frequency)
    (h₂ : ∀ q ∈ l₂, p.2.frequency ≤ q.2.frequency) :
    scan (l₁ ++ p :: l₂) acc = (p.1, p.2.frequency) := by
  rw [scan_append, scan_cons]
  have hgt := scan_snd_gt l₁ p.2.frequency acc hacc h₁
  have hs : scanStep (scan l₁ acc) p = (p.1, p.2.frequency) := by simp [scanStep, hgt]
  rw [hs]
  exact scan_of_le l₂ _ h₂

/-- C13, as stated, fails when the shared least counter is `INT_MAX` (sets 1 and 2 both at
`INT_MAX`: the result is 2147483647, neither of them) and when the first of the tied sets
has a negative identifier (sets -1 and 2 both at 0: the result is 4294967295). -/
theorem findLeastUsedSet_tie_counterexample :
    (saturatedTieState.WF ∧ frequencyOf saturatedTieState 1 = frequencyOf saturatedTieState 2 ∧
      findLeastUsedSet saturatedTieState = 2147483647 ∧
      (findLeastUsedSet saturatedTieState : Int) ≠ 1) ∧
    (negativeTieState.WF ∧ frequencyOf negativeTieState (-1) = frequencyOf negativeTieState 2 ∧
      findLeastUsedSet negativeTieState = 4294967295 ∧
      (findLeastUsedSet negativeTieState : Int) ≠ -1) := by
  decide

/-- C13, amended: when the least counter is below `INT_MAX`, `findLeastUsedSet` returns the
identifier, converted to `uint32_t` (the identifier itself when it is not negative), of the
first entry in iteration order that has the least counter: the entry `p` such that every
entry before it has a strictly larger counter and every entry after it has a counter at
least as large. -/
theorem findLeastUsedSet_first_of_ties (st : State) (l₁ l₂ : EntryMap) (p : Int × CacheEntry)
    (hm : st.cacheEntries = l₁ ++ p :: l₂)
    (h₁ : ∀ q ∈ l₁, p.2.frequency < q.2.frequency)
    (h₂ : ∀ q ∈ l₂, p.2.frequency ≤ q.2.frequency)
    (hlt : p.2.frequency < INT_MAX) :
    findLeastUsedSet st = toUInt32 p.1 ∧
      (0 ≤ p.1 → p.1 ≤ INT_MAX → (findLeastUsedSet st : Int) = p.1) := by
  have hres : findLeastUsedSet st = toUInt32 p.1 := by
    simp [findLeastUsedSet, hm, scan_first_min l₁ l₂ p (INT_MAX, INT_MAX) hlt h₁ h₂]
  refine ⟨hres, fun h0 hmax => ?_⟩
  rw [hres]
  exact toUInt32_eq_self h0 hmax

/-- C13, amended, at the state with sets 4, 7, 9 and counters 3, 1, 1: set 7 comes first
among the two sets of least counter. -/
theorem findLeastUsedSet_first_of_ties_witness :
    findLeastUsedSet tieState = toUInt32 7 ∧
      ((0 : Int) ≤ 7 → (7 : Int) ≤ INT_MAX → (findLeastUsedSet tieState : Int) = 7) :=
  findLeastUsedSet_first_of_ties tieState [(4, { frequency := 3, ways := {0} })]
    [(9, { frequency := 1, ways := {0} })] (7, { frequency := 1, ways := {0} }) rfl
    (by decide) (by decide) (by decide)

/-! ## C14: the value returned for an empty map -/

theorem cacheEntries_eq_nil_of_none_registered (st : State)
    (h : ∀ s : Int, ¬ Registered st s) : st.cacheEntries = [] := by
  cases hm : st.cacheEntries with
  | nil => rfl
  | cons x rest =>
    exfalso
    apply h x.1
    unfold Registered
    rw [find_isSome_iff, hm]
    simp [keys]

/-- C14: when no set is registered, the loop of `findLeastUsedSet` never replaces its initial
candidate and the method returns `INT_MAX`, the number 2147483647, as its result. -/
theorem findLeastUsedSet_sentinel (st : State) (h : ∀ s : Int, ¬ Registered st s) :
    leastUsedSet st = INT_MAX ∧ (findLeastUsedSet st : Int) = INT_MAX ∧
      (findLeastUsedSet st : Int) = 2147483647 := by
  have hm := cacheEntries_eq_nil_of_none_registered st h
  have hl : leastUsedSet st = INT_MAX := by simp [leastUsedSet, hm, scan]
  have hr : (findLeastUsedSet st : Int) = INT_MAX := by
    show ((toUInt32 (leastUsedSet st) : Nat) : Int) = INT_MAX
    rw [hl]
    decide
  exact ⟨hl, hr, hr⟩

/-- C14 at a tracker whose map is empty. -/
theorem findLeastUsedSet_sentinel_witness :
    (∀ s : Int, ¬ Registered State.empty s) ∧
    (leastUsedSet State.empty = INT_MAX ∧ (findLeastUsedSet State.empty : Int) = INT_MAX ∧
      (findLeastUsedSet State.empty : Int) = 2147483647) :=
  ⟨fun _ => by simp [Registered, State.empty, find],
    findLeastUsedSet_sentinel State.empty (fun _ => by simp [Registered, State.empty, find])⟩

/-! ## C15: `incrementAccessCount` creates missing entries -/

/-- C15: for every tracker state and every identifier `s` that is not registered,
`incrementAccessCount(s)` creates an entry for `s`: afterwards `s` is registered, its entry is
the value-initialised entry incremented once (counter 1, no way indices), and nothing is
pushed on the min-heap; the call has no error result. -/
theorem incrementAccessCount_autocreates (L : Layout) (st : State) (s : Int) (hwf : st.WF)
    (hs : ¬ Registered st s) :
    find (incrementAccessCount L st s).cacheEntries s = some { frequency := 1, ways := ∅ } ∧
      waysOf (incrementAccessCount L st s) s = some ∅ ∧
      s ∈ keys (incrementAccessCount L st s).cacheEntries ∧
      (incrementAccessCount L st s).minHeap = st.minHeap := by
  have hnone : find st.cacheEntries s = none := by
    unfold Registered at hs
    cases hf : find st.cacheEntries s with
    | none => rfl
    | some e => simp [hf] at hs
  have hfind : find (incrementAccessCount L st s).cacheEntries s
      = some { frequency := 1, ways := ∅ } := by
    rw [find_incrementAccessCount L hwf.1, if_pos rfl, hnone]
    simp only [Option.getD_none, CacheEntry.zero, Option.some.injEq, CacheEntry.mk.injEq,
      and_true]
    decide
  refine ⟨hfind, by simp [waysOf, hfind], ?_, rfl⟩
  rw [← find_isSome_iff, hfind]
  rfl

/-- C15 at the state with sets 1, 2, 3 and the unregistered identifier 9. -/
theorem incrementAccessCount_autocreates_witness :
    threeSetState.WF ∧ ¬ Registered threeSetState 9 ∧
    (find (incrementAccessCount Layout.front threeSetState 9).cacheEntries 9
        = some { frequency := 1, ways := ∅ } ∧
      waysOf (incrementAccessCount Layout.front threeSetState 9) 9 = some ∅ ∧
      9 ∈ keys (incrementAccessCount Layout.front threeSetState 9).cacheEntries ∧
      (incrementAccessCount Layout.front threeSetState 9).minHeap = threeSetState.minHeap) :=
  ⟨by decide, by decide,
    incrementAccessCount_autocreates Layout.front threeSetState 9 (by decide) (by decide)⟩

/-! ## C16: what `incrementAccessCount` leaves alone -/

/-- C16: for every tracker state and every registered identifier `s`,
`incrementAccessCount(s)` keeps the keys of the map and their iteration order, keeps every
other identifier's entry (counter and way indices), keeps the way indices of `s`, and keeps
the min-heap. -/
theorem incrementAccessCount_frame (L : Layout) (st : State) (s : Int)
    (hs : Registered st s) :
    keys (incrementAccessCount L st s).cacheEntries = keys st.cacheEntries ∧
    (∀ t : Int, Registered (incrementAccessCount L st s) t ↔ Registered st t) ∧
    (∀ t : Int, t ≠ s →
      frequencyOf (incrementAccessCount L st s) t = frequencyOf st t ∧
      waysOf (incrementAccessCount L st s) t = waysOf st t) ∧
    waysOf (incrementAccessCount L st s) s = waysOf st s ∧
    (incrementAccessCount L st s).minHeap = st.minHeap := by
  unfold Registered at hs
  cases he : find st.cacheEntries s with
  | none => simp [he] at hs
  | some e =>
    have hsub : subscript L st.cacheEntries s = st.cacheEntries := subscript_of_find he
    have hkeys : keys (incrementAccessCount L st s).cacheEntries = keys st.cacheEntries := by
      simp [incrementAccessCount, hsub, keys_update]
    have hfind : ∀ t, t ≠ s →
        find (incrementAccessCount L st s).cacheEntries t = find st.cacheEntries t := by
      intro t ht
      simp [incrementAccessCount, hsub, find_update, ht]
    refine ⟨hkeys, ?_, ?_, ?_, rfl⟩
    · intro t
      simp only [Registered, find_isSome_iff, hkeys]
    · intro t ht
      simp [frequencyOf, waysOf, hfind t ht]
    · simp [waysOf, find_incrementAccessCount_of_find L he, he]

/-- C16 at the state with sets 1, 2, 3 and the call `incrementAccessCount(2)`. -/
theorem incrementAccessCount_frame_witness :
    Registered threeSetState 2 ∧
    (keys (incrementAccessCount Layout.back threeSetState 2).cacheEntries
      = keys threeSetState.cacheEntries ∧
    (∀ t : Int, Registered (incrementAccessCount Layout.back threeSetState 2) t ↔
      Registered threeSetState t) ∧
    (∀ t : Int, t ≠ 2 →
      frequencyOf (incrementAccessCount Layout.back threeSetState 2) t
        = frequencyOf threeSetState t ∧
      waysOf (incrementAccessCount Layout.back threeSetState 2) t = waysOf threeSetState t) ∧
    waysOf (incrementAccessCount Layout.back threeSetState 2) 2 = waysOf threeSetState 2 ∧
    (incrementAccessCount Layout.back threeSetState 2).minHeap = threeSetState.minHeap) :=
  ⟨by decide, incrementAccessCount_frame Layout.back threeSetState 2 (by decide)⟩

/-! ## C17: accesses to a set that is not the victim -/

theorem update_eq_map {m : EntryMap} (hnd : (keys m).Nodup) (k : Int)
    (f : CacheEntry → CacheEntry) :
    update m k f = m.map (fun q => if q.1 = k then (q.1, f q.2) else q) := by
  induction m with
  | nil => rfl
  | cons x rest ih =>
    obtain ⟨k', e⟩ := x
    simp only [keys, List.map_cons, List.nodup_cons] at hnd
    by_cases hk : k' = k
    · have hrest : rest.map (fun q => if q.1 = k then (q.1, f q.2) else q) = rest := by
        conv_rhs => rw [← List.map_id rest]
        apply List.map_congr_left
        intro q hq
        have hqk : ¬ q.1 = k := by
          intro h
          apply hnd.1
          rw [hk, ← h]
          exact List.mem_map_of_mem Prod.fst hq
        simp [hqk]
      simp only [update, hk, if_true, List.map_cons, hrest]
    · simp only [update, hk, if_false, List.map_cons]
      rw [ih hnd.2]

theorem toUInt32_ne {x y : Int} (h : toUInt32 x ≠ toUInt32 y) : x ≠ y := fun hxy => h (by rw [hxy])

theorem scan_map_of_mono (g : Int × CacheEntry → Int × CacheEntry) (l₁ l₂ : EntryMap)
    (p : Int × CacheEntry) (acc : Int × Int) (hacc : p.2.frequency < acc.2)
    (h₁ : ∀ q ∈ l₁, p.2.frequency < q.2.frequency)
    (h₂ : ∀ q ∈ l₂, p.2.frequency ≤ q.2.frequency) (hp : g p = p)
    (hmono : ∀ q ∈ l₁ ++ p :: l₂, q.2.frequency ≤ (g q).2.frequency) :
    scan ((l₁ ++ p :: l₂).map g) acc = (p.1, p.2.frequency) := by
  rw [List.map_append, List.map_cons, hp]
  apply scan_first_min _ _ p acc hacc
  · intro q hq
    obtain ⟨q₀, hq₀, rfl⟩ := List.mem_map.mp hq
    exact lt_of_lt_of_le (h₁ q₀ hq₀) (hmono q₀ (by simp [hq₀]))
  · intro q hq
    obtain ⟨q₀, hq₀, rfl⟩ := List.mem_map.mp hq
    exact le_trans (h₂ q₀ hq₀) (hmono q₀ (by simp [hq₀]))

theorem findLeastUsedSet_incrementAccessCount_other (L : Layout) (st : State) (u : Int)
    (e : CacheEntry) (hwf : st.WF) (he : find st.cacheEntries u = some e)
    (hlt : e.frequency < INT_MAX) (hne : toUInt32 u ≠ findLeastUsedSet st) :
    findLeastUsedSet (incrementAccessCount L st u) = findLeastUsedSet st := by
  have hmem : (u, e) ∈ st.cacheEntries := mem_of_find he
  obtain ⟨l₁, p, l₂, hm, hscan, hplt, h₁, h₂⟩ :=
    scan_spec st.cacheEntries (INT_MAX, INT_MAX) ⟨(u, e), hmem, hlt⟩
  have hres : findLeastUsedSet st = toUInt32 p.1 := by simp [findLeastUsedSet, hscan]
  have hup : u ≠ p.1 := toUInt32_ne (by rw [← hres]; exact hne)
  have hw : wrapInt32 (e.frequency + 1) = e.frequency + 1 := by
    apply wrapInt32_eq_self
    have hr := WF_frequency hwf he
    unfold InIntRange at *
    constructor <;> omega
  obtain ⟨g, hg⟩ : ∃ g : Int × CacheEntry → Int × CacheEntry, g = fun q =>
      if q.1 = u then (q.1, { q.2 with frequency := wrapInt32 (q.2.frequency + 1) }) else q :=
    ⟨_, rfl⟩
  have hentries : (incrementAccessCount L st u).cacheEntries = st.cacheEntries.map g := by
    simp only [incrementAccessCount, subscript_of_find he]
    rw [hg]
    exact update_eq_map hwf.1 u _
  have hmono : ∀ q ∈ st.cacheEntries, q.2.frequency ≤ (g q).2.frequency := by
    intro q hq
    rw [hg]
    by_cases hqu : q.1 = u
    · have hqe : q = (u, e) := eq_of_mem_of_key_eq hwf.1 hmem hq hqu
      simp only [hqu, if_true]
      rw [hqe]
      simp only [hw]
      omega
    · simp [hqu]
  have hp : g p = p := by
    have : ¬ p.1 = u := fun h => hup h.symm
    rw [hg]
    simp [this]
  have hscan' := scan_map_of_mono g l₁ l₂ p (INT_MAX, INT_MAX) hplt h₁ h₂ hp
    (by rw [← hm]; exact hmono)
  have hres' : findLeastUsedSet (incrementAccessCount L st u) = toUInt32 p.1 := by
    unfold findLeastUsedSet
    rw [hentries, hm, hscan']
  rw [hres', hres]

/-- C17, as stated, fails when the access overflows a counter: with sets 1 and 2 at counters
0 and `INT_MAX` the result is 1, and after `incrementAccessCount(2)` it is 2.  It also fails
for a victim with a negative identifier, whose identifier is not the number returned: with
sets -1 and 2 both at counter 0 the result is 4294967295, and after
`incrementAccessCount(-1)` it is 2. -/
theorem findLeastUsedSet_stable_counterexample :
    (nearOverflowState.WF ∧ Registered nearOverflowState 2 ∧
      findLeastUsedSet nearOverflowState = 1 ∧
      (2 : Int) ≠ (findLeastUsedSet nearOverflowState : Int) ∧
      findLeastUsedSet (incrementAccessCount Layout.front nearOverflowState 2) = 2) ∧
    (negativeTieState.WF ∧ Registered negativeTieState (-1) ∧
      findLeastUsedSet negativeTieState = 4294967295 ∧
      (-1 : Int) ≠ (findLeastUsedSet negativeTieState : Int) ∧
      findLeastUsedSet (incrementAccessCount Layout.front negativeTieState (-1)) = 2) := by
  decide

/-- C17, amended: for every tracker state and every registered identifier `u` whose counter is
below `INT_MAX` and whose conversion to `uint32_t` differs from the value `findLeastUsedSet`
returns (for a non-negative `u`: `u` itself differs from it), calling
`incrementAccessCount(u)` does not change the result of `findLeastUsedSet`. -/
theorem findLeastUsedSet_stable (L : Layout) (st : State) (u f : Int) (hwf : st.WF)
    (hf : frequencyOf st u = some f) (hlt : f < INT_MAX)
    (hne : toUInt32 u ≠ findLeastUsedSet st) :
    findLeastUsedSet (incrementAccessCount L st u) = findLeastUsedSet st := by
  unfold frequencyOf at hf
  cases he : find st.cacheEntries u with
  | none => simp [he] at hf
  | some e =>
    simp only [he, Option.map_some', Option.some.injEq] at hf
    exact findLeastUsedSet_incrementAccessCount_other L st u e hwf he (by rw [hf]; exact hlt) hne

/-- C17, amended, at the state with sets 1, 2, 3 (victim 3) and an access to set 1. -/
theorem findLeastUsedSet_stable_witness :
    threeSetState.WF ∧ frequencyOf threeSetState 1 = some 2 ∧ (2 : Int) < INT_MAX ∧
      toUInt32 1 ≠ findLeastUsedSet threeSetState ∧
      findLeastUsedSet (incrementAccessCount Layout.back threeSetState 1)
        = findLeastUsedSet threeSetState :=
  ⟨by decide, by decide, by decide, by decide,
    findLeastUsedSet_stable Layout.back threeSetState 1 2 (by decide) (by decide) (by decide)
      (by decide)⟩

/-! ## C18: conversion of the result to `uint32_t` -/

theorem leastUsedSet_init_or_key (st : State) :
    leastUsedSet st = INT_MAX ∨
      ∃ p ∈ st.cacheEntries, leastUsedSet st = p.1 ∧ p.2.frequency < INT_MAX ∧
        ∀ q ∈ st.cacheEntries, p.2.frequency ≤ q.2.frequency := by
  by_cases h : ∃ p ∈ st.cacheEntries, p.2.frequency < INT_MAX
  · obtain ⟨l₁, p, l₂, hm, hscan, hplt, h₁, h₂⟩ := scan_spec st.cacheEntries (INT_MAX, INT_MAX) h
    refine Or.inr ⟨p, by simp [hm], by simp [leastUsedSet, hscan], hplt, ?_⟩
    intro q hq
    rw [hm] at hq
    simp only [List.mem_append, List.mem_cons] at hq
    rcases hq with hq | hq | hq
    · exact le_of_lt (h₁ q hq)
    · rw [hq]
    · exact h₂ q hq
  · left
    have hle : ∀ p ∈ st.cacheEntries, (INT_MAX, INT_MAX).2 ≤ p.2.frequency := by
      intro p hp
      exact not_lt.mp (fun hlt => h ⟨p, hp, hlt⟩)
    simp [leastUsedSet, scan_of_le _ _ hle]

theorem leastUsedSet_inRange (st : State) (hwf : st.WF) : InIntRange (leastUsedSet st) := by
  rcases leastUsedSet_init_or_key st with h | ⟨p, hp, h, _, _⟩
  · rw [h]; decide
  · rw [h]; exact (hwf.2 p hp).1

/-- C18: the result of `findLeastUsedSet` is the selected `int` reduced modulo `2^32`.  The
selected `int` is the identifier of a registered set of least counter whenever some counter is
below `INT_MAX`; when it lies in `0 .. INT_MAX` the result equals it, and when it is negative
the result is that identifier plus `2^32`, which differs from it and is the identifier of no
registered set. -/
theorem findLeastUsedSet_conversion (st : State) (hwf : st.WF) :
    (findLeastUsedSet st : Int) = leastUsedSet st % 4294967296 ∧
    ((∃ p ∈ st.cacheEntries, p.2.frequency < INT_MAX) →
      ∃ p ∈ st.cacheEntries, leastUsedSet st = p.1 ∧
        ∀ q ∈ st.cacheEntries, p.2.frequency ≤ q.2.frequency) ∧
    (0 ≤ leastUsedSet st → leastUsedSet st ≤ INT_MAX ∧
      (findLeastUsedSet st : Int) = leastUsedSet st) ∧
    (leastUsedSet st < 0 →
      (findLeastUsedSet st : Int) = leastUsedSet st + 4294967296 ∧
      (findLeastUsedSet st : Int) ≠ leastUsedSet st ∧
      ¬ Registered st (findLeastUsedSet st : Int)) := by
  have hr := leastUsedSet_inRange st hwf
  have hdef : findLeastUsedSet st = toUInt32 (leastUsedSet st) := rfl
  refine ⟨?_, ?_, ?_, ?_⟩
  · rw [hdef]
    unfold toUInt32
    omega
  · intro h
    rcases leastUsedSet_init_or_key st with h' | ⟨p, hp, h', _, hmin⟩
    · obtain ⟨l₁, p, l₂, hm, hscan, hplt, h₁, h₂⟩ :=
        scan_spec st.cacheEntries (INT_MAX, INT_MAX) h
      refine ⟨p, by simp [hm], by simp [leastUsedSet, hscan], ?_⟩
      intro q hq
      rw [hm] at hq
      simp only [List.mem_append, List.mem_cons] at hq
      rcases hq with hq | hq | hq
      · exact le_of_lt (h₁ q hq)
      · rw [hq]
      · exact h₂ q hq
    · exact ⟨p, hp, h', hmin⟩
  · intro h0
    refine ⟨hr.2, ?_⟩
    rw [hdef]
    exact toUInt32_eq_self h0 hr.2
  · intro hneg
    have hval : (findLeastUsedSet st : Int) = leastUsedSet st + 4294967296 := by
      rw [hdef]
      exact toUInt32_neg hr.1 hneg
    refine ⟨hval, by omega, ?_⟩
    intro hreg
    unfold Registered at hreg
    rw [find_isSome_iff] at hreg
    obtain ⟨q, hq, hqk⟩ := List.mem_map.mp hreg
    have hqr := (hwf.2 q hq).1
    unfold InIntRange INT_MIN INT_MAX at *
    omega

/-- C18 at the state with sets -1 and 3, where the selected identifier is -1. -/
theorem findLeastUsedSet_conversion_witness :
    negativeMinState.WF ∧ leastUsedSet negativeMinState = -1 ∧
    ((findLeastUsedSet negativeMinState : Int) = leastUsedSet negativeMinState % 4294967296 ∧
    ((∃ p ∈ negativeMinState.cacheEntries, p.2.frequency < INT_MAX) →
      ∃ p ∈ negativeMinState.cacheEntries, leastUsedSet negativeMinState = p.1 ∧
        ∀ q ∈ negativeMinState.cacheEntries, p.2.frequency ≤ q.2.frequency) ∧
    (0 ≤ leastUsedSet negativeMinState → leastUsedSet negativeMinState ≤ INT_MAX ∧
      (findLeastUsedSet negativeMinState : Int) = leastUsedSet negativeMinState) ∧
    (leastUsedSet negativeMinState < 0 →
      (findLeastUsedSet negativeMinState : Int) = leastUsedSet negativeMinState + 4294967296 ∧
      (findLeastUsedSet negativeMinState : Int) ≠ leastUsedSet negativeMinState ∧
      ¬ Registered negativeMinState (findLeastUsedSet negativeMinState : Int))) :=
  ⟨by decide, by decide, findLeastUsedSet_conversion negativeMinState (by decide)⟩

/-! ## C19: the min-heap is not consulted -/

/-- C19: two tracker states whose maps hold the same entries in the same iteration order give
the same result of `findLeastUsedSet`, whatever their min-heaps hold. -/
theorem findLeastUsedSet_ignores_minHeap (st₁ st₂ : State)
    (h : st₁.cacheEntries = st₂.cacheEntries) :
    findLeastUsedSet st₁ = findLeastUsedSet st₂ ∧
    ∀ heap : Multiset (Int × Int),
      findLeastUsedSet { st₁ with minHeap := heap } = findLeastUsedSet st₂ := by
  have h1 : findLeastUsedSet st₁ = findLeastUsedSet st₂ := by
    unfold findLeastUsedSet
    rw [h]
  exact ⟨h1, fun _ => h1⟩

/-- C19 at the state with sets 1, 2, 3 and a copy of it whose min-heap holds one unrelated
pair. -/
theorem findLeastUsedSet_ignores_minHeap_witness :
    threeSetState.cacheEntries = ({ threeSetState with minHeap := {(7, 42)} } : State).cacheEntries ∧
    (findLeastUsedSet threeSetState
        = findLeastUsedSet ({ threeSetState with minHeap := {(7, 42)} } : State) ∧
      ∀ heap : Multiset (Int × Int),
        findLeastUsedSet { threeSetState with minHeap := heap }
          = findLeastUsedSet ({ threeSetState with minHeap := {(7, 42)} } : State)) :=
  ⟨rfl, findLeastUsedSet_ignores_minHeap threeSetState
    ({ threeSetState with minHeap := {(7, 42)} } : State) rfl⟩

end LFUSetFinder
